import Mathlib

/-!
# String hash functions of `string_hash.cc`

Shallow embedding of the eleven template functions `BKDRHash`, `SDBMHash`, `RSHash`,
`APHash`, `JSHash`, `DEKHash`, `FNVHash`, `DJBHash`, `DJB2Hash`, `PJWHash`, `ELFHash`.

* `size_t` is an unsigned word of `w` bits: a natural number below `2 ^ w`, every
  arithmetic result reduced modulo `2 ^ w`.
* The memory readable through `str` is a `List Nat`: the values of the elements of
  type `T`, starting at `str`.  Reading past the end of that list is the undefined
  behaviour of the C++ code and is `none` here.
* The loop tests the converted element `(size_t)*str`, the guard `if(!*str)` the element
  itself.  An element that is not zero but converts to the zero word (a multiple of
  `2 ^ w`, which needs an element type wider than `size_t`) ends the loop like the
  sentinel does.  The statements on sequences of characters therefore ask that each
  character converts to a non-zero word, `toSizeT w c ≠ 0`; a non-zero character that
  fits the word does.
* Each function comes in two layers: `XHashRun` executes the code and records, besides
  the final value of `hash`, the number of loop iterations and the indices that were
  read through `str`; `XHash` is the returned value alone.
-/

namespace StringHash

/-! ## Word arithmetic -/

/-- The conversion `(size_t)x` of an unsigned value to a word of `w` bits. -/
def toSizeT (w x : Nat) : Nat := x % 2 ^ w

/-- Addition of two words, `a + b` in `size_t`. -/
def wadd (w a b : Nat) : Nat := (a + b) % 2 ^ w

/-- Multiplication of two words, `a * b` in `size_t`. -/
def wmul (w a b : Nat) : Nat := (a * b) % 2 ^ w

/-- Left shift of a word, `a << n` in `size_t`. -/
def wshl (w a n : Nat) : Nat := (a <<< n) % 2 ^ w

/-- Bitwise complement of a word, `~a` in `size_t`. -/
def wnot (w a : Nat) : Nat := 2 ^ w - 1 - a

/-! ## The loop `while (size_t ch = (size_t)*str++) { body }` -/

/-- What one execution leaves behind: the local state at the exit of the loop, the
number of executions of the loop body, and the indices read through `str`, in order. -/
structure Trace (σ : Type) where
  state : σ
  iters : Nat
  reads : List Nat
deriving DecidableEq

/-- Replace the final state of a trace, keeping the counters. -/
def Trace.map {σ τ : Type} (f : σ → τ) (t : Trace σ) : Trace τ :=
  ⟨f t.state, t.iters, t.reads⟩

/-- The loop shared by all eleven functions.  The first argument is the memory from
`str` on, `pos` is the index of `str` in the caller's buffer, `s` the local state,
`n` the iterations so far and `rd` the indices read so far.  Each round reads `*str`,
advances `str`, converts the element to `size_t` and leaves the loop when that word
is zero; otherwise the body runs on the word. -/
def whileCh {σ : Type} (w : Nat) (body : σ → Nat → σ) :
    List Nat → Nat → σ → Nat → List Nat → Option (Trace σ)
  | [], _, _, _, _ => none
  | c :: rest, pos, s, n, rd =>
    if toSizeT w c = 0 then some ⟨s, n, rd ++ [pos]⟩
    else whileCh w body rest (pos + 1) (body s (toSizeT w c)) (n + 1) (rd ++ [pos])

/-- The guard `if(!*str) return 0;` in front of the loop of the seeded functions: it
reads element 0 without advancing `str` and tests the element itself. -/
def emptyGuard (buf : List Nat) (k : Option (Trace Nat)) : Option (Trace Nat) :=
  match buf with
  | [] => none
  | c :: _ => if c = 0 then some ⟨0, 0, [0]⟩ else k

/-! ## The eleven functions -/

/-- Loop body of `BKDRHash`: `hash = hash * 131 + ch`. -/
def BKDRBody (w hash ch : Nat) : Nat := wadd w (wmul w hash 131) ch

/-- Execution of `BKDRHash`. -/
def BKDRHashRun (w : Nat) (buf : List Nat) : Option (Trace Nat) :=
  whileCh w (BKDRBody w) buf 0 0 0 []

/-- Value returned by `BKDRHash`. -/
def BKDRHash (w : Nat) (buf : List Nat) : Option Nat :=
  (BKDRHashRun w buf).map Trace.state

/-- Loop body of `SDBMHash`: `hash = 65599 * hash + ch`. -/
def SDBMBody (w hash ch : Nat) : Nat := wadd w (wmul w 65599 hash) ch

/-- Execution of `SDBMHash`. -/
def SDBMHashRun (w : Nat) (buf : List Nat) : Option (Trace Nat) :=
  whileCh w (SDBMBody w) buf 0 0 0 []

/-- Value returned by `SDBMHash`. -/
def SDBMHash (w : Nat) (buf : List Nat) : Option Nat :=
  (SDBMHashRun w buf).map Trace.state

/-- Loop body of `RSHash` on the pair `(hash, magic)`:
`hash = hash * magic + ch; magic *= 378551`. -/
def RSBody (w : Nat) (s : Nat × Nat) (ch : Nat) : Nat × Nat :=
  (wadd w (wmul w s.1 s.2) ch, wmul w s.2 378551)

/-- Execution of `RSHash`; the final state is `hash`. -/
def RSHashRun (w : Nat) (buf : List Nat) : Option (Trace Nat) :=
  (whileCh w (RSBody w) buf 0 (0, toSizeT w 63689) 0 []).map (Trace.map Prod.fst)

/-- Value returned by `RSHash`. -/
def RSHash (w : Nat) (buf : List Nat) : Option Nat :=
  (RSHashRun w buf).map Trace.state

/-- Loop body of `APHash` on the pair `(hash, i)`, with the `i++` of the `for`. -/
def APBody (w : Nat) (s : Nat × Nat) (ch : Nat) : Nat × Nat :=
  (if s.2 &&& 1 = 0 then
      s.1 ^^^ (wshl w s.1 7 ^^^ ch ^^^ (s.1 >>> 3))
    else
      s.1 ^^^ wnot w (wshl w s.1 11 ^^^ ch ^^^ (s.1 >>> 5)),
   s.2 + 1)

/-- Execution of `APHash`; the final state is `hash`. -/
def APHashRun (w : Nat) (buf : List Nat) : Option (Trace Nat) :=
  (whileCh w (APBody w) buf 0 (0, 0) 0 []).map (Trace.map Prod.fst)

/-- Value returned by `APHash`. -/
def APHash (w : Nat) (buf : List Nat) : Option Nat :=
  (APHashRun w buf).map Trace.state

/-- Loop body of `JSHash`: `hash ^= ((hash << 5) + ch + (hash >> 2))`. -/
def JSBody (w hash ch : Nat) : Nat :=
  hash ^^^ wadd w (wadd w (wshl w hash 5) ch) (hash >>> 2)

/-- Execution of `JSHash`. -/
def JSHashRun (w : Nat) (buf : List Nat) : Option (Trace Nat) :=
  emptyGuard buf (whileCh w (JSBody w) buf 0 (toSizeT w 1315423911) 0 [0])

/-- Value returned by `JSHash`. -/
def JSHash (w : Nat) (buf : List Nat) : Option Nat :=
  (JSHashRun w buf).map Trace.state

/-- Loop body of `DEKHash`: `hash = ((hash << 5) ^ (hash >> 27)) ^ ch`. -/
def DEKBody (w hash ch : Nat) : Nat :=
  (wshl w hash 5 ^^^ (hash >>> 27)) ^^^ ch

/-- Execution of `DEKHash`. -/
def DEKHashRun (w : Nat) (buf : List Nat) : Option (Trace Nat) :=
  emptyGuard buf (whileCh w (DEKBody w) buf 0 (toSizeT w 1315423911) 0 [0])

/-- Value returned by `DEKHash`. -/
def DEKHash (w : Nat) (buf : List Nat) : Option Nat :=
  (DEKHashRun w buf).map Trace.state

/-- Loop body of `FNVHash`: `hash *= 16777619; hash ^= ch`. -/
def FNVBody (w hash ch : Nat) : Nat := wmul w hash 16777619 ^^^ ch

/-- Execution of `FNVHash`. -/
def FNVHashRun (w : Nat) (buf : List Nat) : Option (Trace Nat) :=
  emptyGuard buf (whileCh w (FNVBody w) buf 0 (toSizeT w 2166136261) 0 [0])

/-- Value returned by `FNVHash`. -/
def FNVHash (w : Nat) (buf : List Nat) : Option Nat :=
  (FNVHashRun w buf).map Trace.state

/-- Loop body of `DJBHash`: `hash += (hash << 5) + ch`. -/
def DJBBody (w hash ch : Nat) : Nat := wadd w hash (wadd w (wshl w hash 5) ch)

/-- Execution of `DJBHash`. -/
def DJBHashRun (w : Nat) (buf : List Nat) : Option (Trace Nat) :=
  emptyGuard buf (whileCh w (DJBBody w) buf 0 (toSizeT w 5381) 0 [0])

/-- Value returned by `DJBHash`. -/
def DJBHash (w : Nat) (buf : List Nat) : Option Nat :=
  (DJBHashRun w buf).map Trace.state

/-- Loop body of `DJB2Hash`: `hash = hash * 33 ^ ch`, that is `(hash * 33) ^ ch`. -/
def DJB2Body (w hash ch : Nat) : Nat := wmul w hash 33 ^^^ ch

/-- Execution of `DJB2Hash`. -/
def DJB2HashRun (w : Nat) (buf : List Nat) : Option (Trace Nat) :=
  emptyGuard buf (whileCh w (DJB2Body w) buf 0 (toSizeT w 5381) 0 [0])

/-- Value returned by `DJB2Hash`. -/
def DJB2Hash (w : Nat) (buf : List Nat) : Option Nat :=
  (DJB2HashRun w buf).map Trace.state

/-- The constant `TotalBits = sizeof(size_t) * 8`: the width of `size_t` in bits. -/
def TotalBits (w : Nat) : Nat := w

/-- The constant `ThreeQuarters = (TotalBits * 3) / 4`, computed in `size_t`. -/
def ThreeQuarters (w : Nat) : Nat := wmul w (TotalBits w) 3 / 4

/-- The constant `OneEighth = TotalBits / 8`. -/
def OneEighth (w : Nat) : Nat := TotalBits w / 8

/-- The constant `HighBits = ((size_t)-1) << (TotalBits - OneEighth)`. -/
def HighBits (w : Nat) : Nat := wshl w (2 ^ w - 1) (TotalBits w - OneEighth w)

/-- Loop body of `PJWHash`; `magic` is assigned in the condition of the `if`. -/
def PJWBody (w hash ch : Nat) : Nat :=
  let hash1 := wadd w (wshl w hash (OneEighth w)) ch
  let magic := hash1 &&& HighBits w
  if magic ≠ 0 then
    (hash1 ^^^ (magic >>> ThreeQuarters w)) &&& wnot w (HighBits w)
  else hash1

/-- Execution of `PJWHash`. -/
def PJWHashRun (w : Nat) (buf : List Nat) : Option (Trace Nat) :=
  whileCh w (PJWBody w) buf 0 0 0 []

/-- Value returned by `PJWHash`. -/
def PJWHash (w : Nat) (buf : List Nat) : Option Nat :=
  (PJWHashRun w buf).map Trace.state

/-- Loop body of `ELFHash`: `hash ^= (magic >> ThreeQuarters); hash &= ~magic`. -/
def ELFBody (w hash ch : Nat) : Nat :=
  let hash1 := wadd w (wshl w hash (OneEighth w)) ch
  let magic := hash1 &&& HighBits w
  if magic ≠ 0 then
    (hash1 ^^^ (magic >>> ThreeQuarters w)) &&& wnot w magic
  else hash1

/-- Execution of `ELFHash`. -/
def ELFHashRun (w : Nat) (buf : List Nat) : Option (Trace Nat) :=
  whileCh w (ELFBody w) buf 0 0 0 []

/-- Value returned by `ELFHash`. -/
def ELFHash (w : Nat) (buf : List Nat) : Option Nat :=
  (ELFHashRun w buf).map Trace.state

/-! ## The suite as a closed set of algorithms -/

/-- The names of the eleven functions. -/
inductive Algorithm where
  | BKDR | SDBM | RS | AP | JS | DEK | FNV | DJB | DJB2 | PJW | ELF
deriving DecidableEq

/-- Execution of the function named by `a`. -/
def run : Algorithm → Nat → List Nat → Option (Trace Nat)
  | .BKDR => BKDRHashRun
  | .SDBM => SDBMHashRun
  | .RS => RSHashRun
  | .AP => APHashRun
  | .JS => JSHashRun
  | .DEK => DEKHashRun
  | .FNV => FNVHashRun
  | .DJB => DJBHashRun
  | .DJB2 => DJB2HashRun
  | .PJW => PJWHashRun
  | .ELF => ELFHashRun

/-- Value returned by the function named by `a`. -/
def hash : Algorithm → Nat → List Nat → Option Nat
  | .BKDR => BKDRHash
  | .SDBM => SDBMHash
  | .RS => RSHash
  | .AP => APHash
  | .JS => JSHash
  | .DEK => DEKHash
  | .FNV => FNVHash
  | .DJB => DJBHash
  | .DJB2 => DJB2Hash
  | .PJW => PJWHash
  | .ELF => ELFHash

/-- The sum `c_0 * b^(n-1) + c_1 * b^(n-2) + ... + c_(n-1)` over the natural numbers,
for the sequence `c_0 .. c_(n-1)`. -/
def polySum (b : Nat) : List Nat → Nat
  | [] => 0
  | c :: cs => c * b ^ cs.length + polySum b cs

/-- The description of DJB as multiplication by 33: the left fold of
`h ↦ (h * 33 + c) mod 2 ^ w` over the characters, from 5381. -/
def DJBSpec (w : Nat) (s : List Nat) : Nat :=
  s.foldl (fun h c => (h * 33 + c) % 2 ^ w) 5381

/-- Subtraction of two words, `a - b` in `size_t`. -/
def wsub (w a b : Nat) : Nat := (a + (2 ^ w - b % 2 ^ w)) % 2 ^ w

/-- The alternative loop body that `SDBMHash` keeps in a comment:
`hash = (size_t)ch + (hash << 6) + (hash << 16) - hash`. -/
def SDBMBodyAlt (w hash ch : Nat) : Nat :=
  wsub w (wadd w (wadd w ch (wshl w hash 6)) (wshl w hash 16)) hash

/-- Value returned by `SDBMHash` with the commented-out body in place of the
multiplication. -/
def SDBMHashAlt (w : Nat) (buf : List Nat) : Option Nat :=
  (whileCh w (SDBMBodyAlt w) buf 0 0 0 []).map Trace.state

/-- The description of JS: the left fold of `h ↦ h xor ((h << 5) + c + (h >> 2))`
modulo `2 ^ w`, from 1315423911. -/
def JSSpec (w : Nat) (s : List Nat) : Nat :=
  s.foldl (fun h c => (h ^^^ ((h <<< 5) + c + (h >>> 2))) % 2 ^ w) 1315423911

/-- The description of DEK: the left fold of `h ↦ ((h << 5) xor (h >> 27)) xor c`
modulo `2 ^ w`, from 1315423911. -/
def DEKSpec (w : Nat) (s : List Nat) : Nat :=
  s.foldl (fun h c => (((h <<< 5) ^^^ (h >>> 27)) ^^^ c) % 2 ^ w) 1315423911

/-- The description of FNV: the left fold of `h ↦ (h * 16777619) xor c` modulo `2 ^ w`,
from 2166136261. -/
def FNVSpec (w : Nat) (s : List Nat) : Nat :=
  s.foldl (fun h c => ((h * 16777619) ^^^ c) % 2 ^ w) 2166136261

/-- The description of DJB2: the left fold of `h ↦ (h * 33) xor c` modulo `2 ^ w`,
from 5381. -/
def DJB2Spec (w : Nat) (s : List Nat) : Nat :=
  s.foldl (fun h c => ((h * 33) ^^^ c) % 2 ^ w) 5381

/-- The description of RS, from the `k`-th character on: `h = (h * m_k + c_k) mod 2 ^ w`
with the multiplier `m_k = (63689 * 378551 ^ k) mod 2 ^ w`. -/
def RSSpecFrom (w : Nat) : Nat → List Nat → Nat → Nat
  | _, [], h => h
  | k, c :: cs, h =>
    RSSpecFrom w (k + 1) cs ((h * ((63689 * 378551 ^ k) % 2 ^ w) + c) % 2 ^ w)

/-- The description of RS: the schedule from `h = 0` and `k = 0`. -/
def RSSpec (w : Nat) (s : List Nat) : Nat := RSSpecFrom w 0 s 0

/-- The description of AP, from the character at position `i` on: the rule with the
shifts 7 and 3 at an even position, the complemented rule with the shifts 11 and 5 at
an odd position, both at word width `w`. -/
def APSpecFrom (w : Nat) : Nat → List Nat → Nat → Nat
  | _, [], h => h
  | i, c :: cs, h =>
    APSpecFrom w (i + 1) cs
      (if i % 2 = 0 then
        (h ^^^ ((h <<< 7) ^^^ c ^^^ (h >>> 3))) % 2 ^ w
      else
        (h ^^^ (2 ^ w - 1 - ((h <<< 11) ^^^ c ^^^ (h >>> 5)) % 2 ^ w)) % 2 ^ w)

/-- The description of AP: the alternation from `h = 0` at position 0. -/
def APSpec (w : Nat) (s : List Nat) : Nat := APSpecFrom w 0 s 0

/-- Rotation of the `w`-bit word `h` to the left by `k` bits: the bits shifted out at
the top come back in at the bottom. -/
def rotl (w h k : Nat) : Nat := (h <<< k) % 2 ^ w ||| h >>> (w - k)

/-- A well-terminated input: characters, none of them zero, closed by one sentinel. -/
def WellTerminated (buf : List Nat) : Prop :=
  buf.getLast? = some 0 ∧ ∀ c ∈ buf.dropLast, c ≠ 0

instance (buf : List Nat) : Decidable (WellTerminated buf) := by
  unfold WellTerminated
  infer_instance

/-! ## The loop on a buffer that holds a zero element -/

theorem toSizeT_zero (w : Nat) : toSizeT w 0 = 0 := by
  simp [toSizeT]

theorem toSizeT_of_lt {w c : Nat} (h : c < 2 ^ w) : toSizeT w c = c := by
  simp [toSizeT, Nat.mod_eq_of_lt h]

theorem toSizeT_lt (w c : Nat) : toSizeT w c < 2 ^ w :=
  Nat.mod_lt _ (Nat.two_pow_pos w)

theorem whileCh_nil {σ : Type} (w : Nat) (body : σ → Nat → σ) (pos : Nat) (s : σ) (n : Nat)
    (rd : List Nat) : whileCh w body [] pos s n rd = none := rfl

theorem whileCh_cons {σ : Type} (w : Nat) (body : σ → Nat → σ) (c : Nat) (rest : List Nat)
    (pos : Nat) (s : σ) (n : Nat) (rd : List Nat) :
    whileCh w body (c :: rest) pos s n rd =
      if toSizeT w c = 0 then some ⟨s, n, rd ++ [pos]⟩
      else whileCh w body rest (pos + 1) (body s (toSizeT w c)) (n + 1) (rd ++ [pos]) := rfl

/-- On memory `pre ++ z :: post` whose elements `pre` convert to non-zero words and
whose element `z` converts to zero, the loop runs its body once per element of `pre`,
in order, reads the indices `pos .. pos + pre.length` and stops. -/
theorem whileCh_sentinel {σ : Type} (w : Nat) (body : σ → Nat → σ) (z : Nat)
    (post : List Nat) (hz : toSizeT w z = 0) :
    ∀ (pre : List Nat), (∀ c ∈ pre, toSizeT w c ≠ 0) →
    ∀ (pos : Nat) (s : σ) (n : Nat) (rd : List Nat),
      whileCh w body (pre ++ z :: post) pos s n rd =
        some ⟨(pre.map (toSizeT w)).foldl body s, n + pre.length,
          rd ++ List.range' pos (pre.length + 1)⟩ := by
  intro pre
  induction pre with
  | nil =>
    intro _ pos s n rd
    simp [whileCh, hz]
  | cons c pre ih =>
    intro hpre pos s n rd
    have hc : toSizeT w c ≠ 0 := hpre c (List.mem_cons_self c pre)
    have hrest : ∀ d ∈ pre, toSizeT w d ≠ 0 := fun d hd => hpre d (List.mem_cons_of_mem c hd)
    rw [List.cons_append, whileCh_cons, if_neg hc, ih hrest]
    simp only [List.map_cons, List.foldl_cons, List.length_cons, List.append_assoc,
      List.singleton_append]
    rw [List.range'_succ pos (pre.length + 1)]
    congr 2
    omega

/-- Whatever the elements in front of a zero element are, the loop stops at that zero
element or before it: it returns, runs at most one round per element in front of the
zero and reads no index behind the zero. -/
theorem whileCh_bounded {σ : Type} (w : Nat) (body : σ → Nat → σ) (post : List Nat) :
    ∀ (pre : List Nat) (pos : Nat) (s : σ) (n : Nat) (rd : List Nat),
      ∃ t, whileCh w body (pre ++ 0 :: post) pos s n rd = some t ∧
        t.iters ≤ n + pre.length ∧ ∀ i ∈ t.reads, i ∈ rd ∨ i ≤ pos + pre.length := by
  intro pre
  induction pre with
  | nil =>
    intro pos s n rd
    refine ⟨⟨s, n, rd ++ [pos]⟩, by simp [whileCh, toSizeT_zero], by simp, ?_⟩
    intro i hi
    simp only [List.mem_append, List.mem_singleton] at hi
    rcases hi with hi | hi
    · exact Or.inl hi
    · exact Or.inr (by simp [hi])
  | cons c pre ih =>
    intro pos s n rd
    by_cases hc : toSizeT w c = 0
    · refine ⟨⟨s, n, rd ++ [pos]⟩, by rw [List.cons_append, whileCh_cons, if_pos hc], by simp, ?_⟩
      intro i hi
      simp only [List.mem_append, List.mem_singleton] at hi
      rcases hi with hi | hi
      · exact Or.inl hi
      · exact Or.inr (by simp [hi])
    · obtain ⟨t, ht, hit, hrd⟩ := ih (pos + 1) (body s (toSizeT w c)) (n + 1) (rd ++ [pos])
      refine ⟨t, by rw [List.cons_append, whileCh_cons, if_neg hc, ht], ?_, ?_⟩
      · simp only [List.length_cons]; omega
      · intro i hi
        rcases hrd i hi with h | h
        · simp only [List.mem_append, List.mem_singleton] at h
          rcases h with h | h
          · exact Or.inl h
          · exact Or.inr (by simp [h])
        · exact Or.inr (by simp only [List.length_cons]; omega)

/-- The memory behind a zero element has no influence on the loop. -/
theorem whileCh_post {σ : Type} (w : Nat) (body : σ → Nat → σ) (post₁ post₂ : List Nat) :
    ∀ (pre : List Nat) (pos : Nat) (s : σ) (n : Nat) (rd : List Nat),
      whileCh w body (pre ++ 0 :: post₁) pos s n rd =
        whileCh w body (pre ++ 0 :: post₂) pos s n rd := by
  intro pre
  induction pre with
  | nil => intro pos s n rd; simp [whileCh, toSizeT_zero]
  | cons c pre ih =>
    intro pos s n rd
    rw [List.cons_append, List.cons_append, whileCh_cons, whileCh_cons, ih]

/-- The seeded functions on memory `pre ++ 0 :: post` with `pre` converting to non-zero
words: the guard returns 0 at once when `pre` is empty, otherwise the loop runs from
the seed; element 0 is read twice, by the guard and by the first round. -/
theorem seeded_sentinel (w : Nat) (body : Nat → Nat → Nat) (seed : Nat) (pre post : List Nat)
    (hpre : ∀ c ∈ pre, toSizeT w c ≠ 0) :
    emptyGuard (pre ++ 0 :: post) (whileCh w body (pre ++ 0 :: post) 0 seed 0 [0]) =
      some (if pre = [] then ⟨0, 0, [0]⟩
        else ⟨(pre.map (toSizeT w)).foldl body seed, pre.length,
          0 :: List.range' 0 (pre.length + 1)⟩) := by
  cases pre with
  | nil => simp [emptyGuard]
  | cons c pre =>
    have hc : c ≠ 0 := by
      intro h0
      exact hpre c (List.mem_cons_self c pre) (by rw [h0]; exact toSizeT_zero w)
    rw [whileCh_sentinel w body 0 post (toSizeT_zero w) (c :: pre) hpre]
    simp [emptyGuard, hc]

/-- The seedless functions on memory `pre ++ 0 :: post` with `pre` converting to
non-zero words. -/
theorem seedless_sentinel {σ : Type} (w : Nat) (body : σ → Nat → σ) (init : σ)
    (pre post : List Nat) (hpre : ∀ c ∈ pre, toSizeT w c ≠ 0) :
    whileCh w body (pre ++ 0 :: post) 0 init 0 [] =
      some ⟨(pre.map (toSizeT w)).foldl body init, pre.length,
        List.range' 0 (pre.length + 1)⟩ := by
  rw [whileCh_sentinel w body 0 post (toSizeT_zero w) pre hpre]
  simp

/-! ## Values of the functions on a terminated sequence -/

theorem BKDRHash_sentinel (w : Nat) (pre post : List Nat) (hpre : ∀ c ∈ pre, toSizeT w c ≠ 0) :
    BKDRHash w (pre ++ 0 :: post) = some ((pre.map (toSizeT w)).foldl (BKDRBody w) 0) := by
  simp [BKDRHash, BKDRHashRun, seedless_sentinel w _ _ pre post hpre]

theorem SDBMHash_sentinel (w : Nat) (pre post : List Nat) (hpre : ∀ c ∈ pre, toSizeT w c ≠ 0) :
    SDBMHash w (pre ++ 0 :: post) = some ((pre.map (toSizeT w)).foldl (SDBMBody w) 0) := by
  simp [SDBMHash, SDBMHashRun, seedless_sentinel w _ _ pre post hpre]

theorem RSHash_sentinel (w : Nat) (pre post : List Nat) (hpre : ∀ c ∈ pre, toSizeT w c ≠ 0) :
    RSHash w (pre ++ 0 :: post) =
      some ((pre.map (toSizeT w)).foldl (RSBody w) (0, toSizeT w 63689)).1 := by
  simp [RSHash, RSHashRun, Trace.map, seedless_sentinel w _ _ pre post hpre]

theorem APHash_sentinel (w : Nat) (pre post : List Nat) (hpre : ∀ c ∈ pre, toSizeT w c ≠ 0) :
    APHash w (pre ++ 0 :: post) = some ((pre.map (toSizeT w)).foldl (APBody w) (0, 0)).1 := by
  simp [APHash, APHashRun, Trace.map, seedless_sentinel w _ _ pre post hpre]

theorem PJWHash_sentinel (w : Nat) (pre post : List Nat) (hpre : ∀ c ∈ pre, toSizeT w c ≠ 0) :
    PJWHash w (pre ++ 0 :: post) = some ((pre.map (toSizeT w)).foldl (PJWBody w) 0) := by
  simp [PJWHash, PJWHashRun, seedless_sentinel w _ _ pre post hpre]

theorem ELFHash_sentinel (w : Nat) (pre post : List Nat) (hpre : ∀ c ∈ pre, toSizeT w c ≠ 0) :
    ELFHash w (pre ++ 0 :: post) = some ((pre.map (toSizeT w)).foldl (ELFBody w) 0) := by
  simp [ELFHash, ELFHashRun, seedless_sentinel w _ _ pre post hpre]

theorem JSHash_sentinel (w : Nat) (pre post : List Nat) (hpre : ∀ c ∈ pre, toSizeT w c ≠ 0)
    (hne : pre ≠ []) :
    JSHash w (pre ++ 0 :: post) =
      some ((pre.map (toSizeT w)).foldl (JSBody w) (toSizeT w 1315423911)) := by
  simp [JSHash, JSHashRun, seeded_sentinel w _ _ pre post hpre, hne]

theorem DEKHash_sentinel (w : Nat) (pre post : List Nat) (hpre : ∀ c ∈ pre, toSizeT w c ≠ 0)
    (hne : pre ≠ []) :
    DEKHash w (pre ++ 0 :: post) =
      some ((pre.map (toSizeT w)).foldl (DEKBody w) (toSizeT w 1315423911)) := by
  simp [DEKHash, DEKHashRun, seeded_sentinel w _ _ pre post hpre, hne]

theorem FNVHash_sentinel (w : Nat) (pre post : List Nat) (hpre : ∀ c ∈ pre, toSizeT w c ≠ 0)
    (hne : pre ≠ []) :
    FNVHash w (pre ++ 0 :: post) =
      some ((pre.map (toSizeT w)).foldl (FNVBody w) (toSizeT w 2166136261)) := by
  simp [FNVHash, FNVHashRun, seeded_sentinel w _ _ pre post hpre, hne]

theorem DJBHash_sentinel (w : Nat) (pre post : List Nat) (hpre : ∀ c ∈ pre, toSizeT w c ≠ 0)
    (hne : pre ≠ []) :
    DJBHash w (pre ++ 0 :: post) =
      some ((pre.map (toSizeT w)).foldl (DJBBody w) (toSizeT w 5381)) := by
  simp [DJBHash, DJBHashRun, seeded_sentinel w _ _ pre post hpre, hne]

theorem DJB2Hash_sentinel (w : Nat) (pre post : List Nat) (hpre : ∀ c ∈ pre, toSizeT w c ≠ 0)
    (hne : pre ≠ []) :
    DJB2Hash w (pre ++ 0 :: post) =
      some ((pre.map (toSizeT w)).foldl (DJB2Body w) (toSizeT w 5381)) := by
  simp [DJB2Hash, DJB2HashRun, seeded_sentinel w _ _ pre post hpre, hne]

/-! ## Arithmetic of words -/

theorem wadd_lt (w a b : Nat) : wadd w a b < 2 ^ w :=
  Nat.mod_lt _ (Nat.two_pow_pos w)

theorem wmul_lt (w a b : Nat) : wmul w a b < 2 ^ w :=
  Nat.mod_lt _ (Nat.two_pow_pos w)

theorem wshl_lt (w a n : Nat) : wshl w a n < 2 ^ w :=
  Nat.mod_lt _ (Nat.two_pow_pos w)

theorem wshl_eq_mul (w a n : Nat) : wshl w a n = (a * 2 ^ n) % 2 ^ w := by
  simp [wshl, Nat.shiftLeft_eq]

/-- Bits of the complement of a word. -/
theorem testBit_wnot {w a : Nat} (ha : a < 2 ^ w) (i : Nat) :
    (wnot w a).testBit i = (decide (i < w) && !a.testBit i) := by
  have h : wnot w a = 2 ^ w - (a + 1) := by simp only [wnot]; omega
  rw [h, Nat.testBit_two_pow_sub_succ ha]

/-- Bits of `HighBits`: exactly the bits `w - w / 8 .. w - 1`. -/
theorem testBit_HighBits (w i : Nat) :
    (HighBits w).testBit i = (decide (i < w) && decide (w - w / 8 ≤ i)) := by
  simp only [HighBits, wshl, TotalBits, OneEighth, Nat.testBit_mod_two_pow,
    Nat.testBit_shiftLeft, Nat.testBit_two_pow_sub_one]
  by_cases h1 : i < w <;> by_cases h2 : w - w / 8 ≤ i <;> simp [h1, h2]
  omega

/-- A word below `2 ^ (w - w / 8)` has none of the high bits. -/
theorem and_HighBits_of_lt {w c : Nat} (hc : c < 2 ^ (w - w / 8)) : c &&& HighBits w = 0 := by
  apply Nat.eq_of_testBit_eq
  intro i
  rw [Nat.testBit_and, testBit_HighBits, Nat.zero_testBit]
  by_cases h2 : w - w / 8 ≤ i
  · have : c < 2 ^ i := lt_of_lt_of_le hc (Nat.pow_le_pow_right (by decide) h2)
    simp [Nat.testBit_lt_two_pow this]
  · simp [h2]

/-- The two fold steps of `PJWHash` and `ELFHash` agree on every word, as soon as the
folded bits land below the high bits (`OneEighth w ≤ ThreeQuarters w`). -/
theorem PJWBody_eq_ELFBody (w : Nat) (hT : OneEighth w ≤ ThreeQuarters w) (hash ch : Nat) :
    PJWBody w hash ch = ELFBody w hash ch := by
  simp only [PJWBody, ELFBody]
  generalize hx : wadd w (wshl w hash (OneEighth w)) ch = x
  have hxlt : x < 2 ^ w := by rw [← hx]; exact wadd_lt _ _ _
  have hH : HighBits w < 2 ^ w := wshl_lt _ _ _
  have hm : x &&& HighBits w < 2 ^ w := Nat.and_lt_two_pow x hH
  split
  · apply Nat.eq_of_testBit_eq
    intro i
    simp only [Nat.testBit_and, Nat.testBit_xor, Nat.testBit_shiftRight, testBit_wnot hH,
      testBit_wnot hm, testBit_HighBits]
    simp only [OneEighth, TotalBits] at hT
    by_cases h1 : i < w
    · by_cases h2 : w - w / 8 ≤ i
      · have h3 : ¬ (ThreeQuarters w + i < w) := by omega
        simp [h1, h2, h3]
      · simp [h1, h2]
    · simp [h1]
  · rfl

theorem OneEighth_le_ThreeQuarters_32 : OneEighth 32 ≤ ThreeQuarters 32 := by decide

theorem OneEighth_le_ThreeQuarters_64 : OneEighth 64 ≤ ThreeQuarters 64 := by decide

/-- At 32 and at 64 bits `PJWHash` and `ELFHash` are the same function of the memory. -/
theorem PJWHash_eq_ELFHash_of (w : Nat) (hT : OneEighth w ≤ ThreeQuarters w)
    (buf : List Nat) : PJWHash w buf = ELFHash w buf := by
  have hb : PJWBody w = ELFBody w := by
    funext h c
    exact PJWBody_eq_ELFBody w hT h c
  simp [PJWHash, ELFHash, PJWHashRun, ELFHashRun, hb]

/-! ## Empty input -/

/-- C1. Empty-input convention: for each of the eleven functions and every word width,
a buffer whose first element is the zero sentinel is hashed to exactly 0, also by the
functions with a non-zero seed, and whatever lies behind the sentinel. -/
theorem empty_input_hash_zero (a : Algorithm) (w : Nat) (post : List Nat) :
    hash a w (0 :: post) = some 0 := by
  cases a <;>
    simp [hash, BKDRHash, BKDRHashRun, SDBMHash, SDBMHashRun, RSHash, RSHashRun, APHash,
      APHashRun, JSHash, JSHashRun, DEKHash, DEKHashRun, FNVHash, FNVHashRun, DJBHash,
      DJBHashRun, DJB2Hash, DJB2HashRun, PJWHash, PJWHashRun, ELFHash, ELFHashRun,
      whileCh_cons, toSizeT_zero, emptyGuard, Trace.map]

/-! ## Concrete vectors -/

/-- C2, as stated, fails: on the two characters "ab" (97, 98, sentinel) `BKDRHash`
returns 97 * 131 + 98 = 12805 at 32 and at 64 bits, not 12807. -/
theorem BKDRHash_ab_ne_12807 :
    BKDRHash 32 [97, 98, 0] = some 12805 ∧ BKDRHash 32 [97, 98, 0] ≠ some 12807 ∧
    BKDRHash 64 [97, 98, 0] = some 12805 ∧ BKDRHash 64 [97, 98, 0] ≠ some 12807 := by
  decide

/-- C2, amended. Concrete vector: with 8-bit characters and a word of 32 or 64 bits,
`BKDRHash` applied to "ab" (97, 98, then the sentinel, then anything) returns 12805. -/
theorem BKDRHash_ab_eq_12805 (post : List Nat) :
    BKDRHash 32 (97 :: 98 :: 0 :: post) = some 12805 ∧
    BKDRHash 64 (97 :: 98 :: 0 :: post) = some 12805 := by
  constructor
  · rw [show (97 :: 98 :: 0 :: post) = [97, 98] ++ 0 :: post from rfl,
      BKDRHash_sentinel 32 [97, 98] post (by decide)]
    decide
  · rw [show (97 :: 98 :: 0 :: post) = [97, 98] ++ 0 :: post from rfl,
      BKDRHash_sentinel 64 [97, 98] post (by decide)]
    decide

/-- C3. Single characters under the zero-seeded functions: for a one-element sequence
`c` with `c ≠ 0` and `c < 2 ^ (w - w / 8)` (so every 8-bit character at 32 and 64
bits), `BKDRHash`, `SDBMHash`, `RSHash`, `APHash`, `PJWHash` and `ELFHash` all
return exactly `c`. -/
theorem single_char_zero_seeded (w c : Nat) (post : List Nat) (h0 : c ≠ 0)
    (hc : c < 2 ^ (w - w / 8)) :
    BKDRHash w (c :: 0 :: post) = some c ∧ SDBMHash w (c :: 0 :: post) = some c ∧
    RSHash w (c :: 0 :: post) = some c ∧ APHash w (c :: 0 :: post) = some c ∧
    PJWHash w (c :: 0 :: post) = some c ∧ ELFHash w (c :: 0 :: post) = some c := by
  have hlt : c < 2 ^ w := lt_of_lt_of_le hc (Nat.pow_le_pow_right (by decide) (Nat.sub_le _ _))
  have hcw : toSizeT w c = c := toSizeT_of_lt hlt
  have hmod : c % 2 ^ w = c := Nat.mod_eq_of_lt hlt
  have hpre : ∀ d ∈ [c], toSizeT w d ≠ 0 := by
    intro d hd
    rw [List.mem_singleton] at hd
    rw [hd, hcw]; exact h0
  have hsplit : (c :: 0 :: post) = [c] ++ 0 :: post := rfl
  have hhigh : c &&& HighBits w = 0 := and_HighBits_of_lt hc
  rw [hsplit, BKDRHash_sentinel w [c] post hpre, SDBMHash_sentinel w [c] post hpre,
    RSHash_sentinel w [c] post hpre, APHash_sentinel w [c] post hpre,
    PJWHash_sentinel w [c] post hpre, ELFHash_sentinel w [c] post hpre]
  simp [hcw, BKDRBody, SDBMBody, RSBody, APBody, PJWBody, ELFBody, wadd, wmul, wshl, hmod,
    hhigh]

/-- Instance of C3 at 32 bits for the character 'a'. -/
theorem single_char_zero_seeded_witness :
    BKDRHash 32 [97, 0] = some 97 ∧ SDBMHash 32 [97, 0] = some 97 ∧
    RSHash 32 [97, 0] = some 97 ∧ APHash 32 [97, 0] = some 97 ∧
    PJWHash 32 [97, 0] = some 97 ∧ ELFHash 32 [97, 0] = some 97 :=
  single_char_zero_seeded 32 97 [] (by decide) (by decide)

/-- The step `hash += (hash << 5) + ch` from the seed 5381. -/
theorem DJBBody_seed (w c : Nat) :
    DJBBody w (toSizeT w 5381) (toSizeT w c) = (5381 + (5381 <<< 5) + c) % 2 ^ w := by
  simp only [DJBBody, wadd, wshl, toSizeT, Nat.shiftLeft_eq]
  have e1 : (5381 % 2 ^ w * 2 ^ 5) % 2 ^ w = (5381 * 2 ^ 5) % 2 ^ w := by
    rw [Nat.mul_mod, Nat.mod_mod, ← Nat.mul_mod]
  rw [e1]
  conv_rhs => rw [Nat.add_assoc, Nat.add_mod]
  conv_lhs => rw [Nat.add_mod, Nat.mod_mod]
  congr 2
  rw [Nat.mod_mod, Nat.add_mod, Nat.mod_mod, Nat.mod_mod, ← Nat.add_mod]

/-- C4, as stated, fails: the one-element sequence with the non-zero element `2 ^ 32`
at 32 bits (an element type wider than the word) converts to the zero word, the loop
of `DJBHash` does not run and the seed 5381 is returned, where the formula
`(5381 + (5381 << 5) + c) mod 2 ^ w` gives 177573; the same at 64 bits with `2 ^ 64`. -/
theorem DJBHash_single_wide_char :
    ((4294967296 : Nat) ≠ 0 ∧ DJBHash 32 [4294967296, 0] = some 5381 ∧
      (5381 + (5381 <<< 5) + 4294967296) % 2 ^ 32 = 177573 ∧
      DJBHash 32 [4294967296, 0] ≠ some ((5381 + (5381 <<< 5) + 4294967296) % 2 ^ 32)) ∧
    ((18446744073709551616 : Nat) ≠ 0 ∧ DJBHash 64 [18446744073709551616, 0] = some 5381 ∧
      (5381 + (5381 <<< 5) + 18446744073709551616) % 2 ^ 64 = 177573 ∧
      DJBHash 64 [18446744073709551616, 0] ≠
        some ((5381 + (5381 <<< 5) + 18446744073709551616) % 2 ^ 64)) := by
  decide

/-- C4, amended. Concrete vector for DJB: on a one-element sequence `c` whose element
converts to a non-zero word (`c mod 2 ^ w ≠ 0`; every non-zero character that fits
the word does), `DJBHash` returns `(5381 + (5381 << 5) + c) mod 2 ^ w`; for "a"
(`c = 97`) at 32 and at 64 bits that is 177670. -/
theorem DJBHash_single_char (w c : Nat) (post : List Nat) (hconv : toSizeT w c ≠ 0) :
    DJBHash w (c :: 0 :: post) = some ((5381 + (5381 <<< 5) + c) % 2 ^ w) ∧
    DJBHash 32 (97 :: 0 :: post) = some 177670 ∧
    DJBHash 64 (97 :: 0 :: post) = some 177670 := by
  have key : ∀ (v d : Nat), toSizeT v d ≠ 0 →
      DJBHash v (d :: 0 :: post) = some ((5381 + (5381 <<< 5) + d) % 2 ^ v) := by
    intro v d hd
    have hpre : ∀ e ∈ [d], toSizeT v e ≠ 0 := by
      intro e he
      rw [List.mem_singleton] at he
      rw [he]; exact hd
    rw [show (d :: 0 :: post) = [d] ++ 0 :: post from rfl,
      DJBHash_sentinel v [d] post hpre (by simp)]
    simp only [List.map_cons, List.map_nil, List.foldl_cons, List.foldl_nil]
    rw [DJBBody_seed]
  refine ⟨key w c hconv, ?_, ?_⟩
  · rw [key 32 97 (by decide)]; decide
  · rw [key 64 97 (by decide)]; decide

/-- Instance of the amended C4 at 32 bits for the character 'a'. -/
theorem DJBHash_single_char_witness :
    DJBHash 32 [97, 0] = some ((5381 + (5381 <<< 5) + 97) % 2 ^ 32) ∧
    DJBHash 32 [97, 0] = some 177670 ∧ DJBHash 64 [97, 0] = some 177670 :=
  DJBHash_single_char 32 97 [] (by decide)

/-! ## Which functions differ -/

/-- C5, as stated, fails: neither at 32 nor at 64 bits does every pair of distinct
functions have a well-terminated input that separates them, since `PJWHash` and
`ELFHash` return the same value on every input. -/
theorem not_all_pairs_distinct :
    (¬ ∀ a b : Algorithm, a ≠ b →
      ∃ buf, WellTerminated buf ∧ hash a 32 buf ≠ hash b 32 buf) ∧
    (¬ ∀ a b : Algorithm, a ≠ b →
      ∃ buf, WellTerminated buf ∧ hash a 64 buf ≠ hash b 64 buf) := by
  constructor
  · intro h
    obtain ⟨buf, _, hne⟩ := h Algorithm.PJW Algorithm.ELF (by decide)
    exact hne (PJWHash_eq_ELFHash_of 32 OneEighth_le_ThreeQuarters_32 buf)
  · intro h
    obtain ⟨buf, _, hne⟩ := h Algorithm.PJW Algorithm.ELF (by decide)
    exact hne (PJWHash_eq_ELFHash_of 64 OneEighth_le_ThreeQuarters_64 buf)

/-- C5, amended. At a word width of 32 or 64 bits, every pair of distinct functions
other than the pair `PJWHash`, `ELFHash` is separated by a well-terminated input (the
two characters "ab" do it), while `PJWHash` and `ELFHash` agree on every input. -/
theorem pairs_distinct_except_PJW_ELF (w : Nat) (hw : w = 32 ∨ w = 64) (a b : Algorithm)
    (hab : a ≠ b) :
    (¬ (a = Algorithm.PJW ∧ b = Algorithm.ELF) → ¬ (a = Algorithm.ELF ∧ b = Algorithm.PJW) →
      ∃ buf, WellTerminated buf ∧ hash a w buf ≠ hash b w buf) ∧
    (∀ buf, hash Algorithm.PJW w buf = hash Algorithm.ELF w buf) := by
  rcases hw with rfl | rfl
  · refine ⟨?_, fun buf => PJWHash_eq_ELFHash_of 32 OneEighth_le_ThreeQuarters_32 buf⟩
    intro h1 h2
    refine ⟨[97, 98, 0], by decide, ?_⟩
    revert hab h1 h2
    cases a <;> cases b <;> decide
  · refine ⟨?_, fun buf => PJWHash_eq_ELFHash_of 64 OneEighth_le_ThreeQuarters_64 buf⟩
    intro h1 h2
    refine ⟨[97, 98, 0], by decide, ?_⟩
    revert hab h1 h2
    cases a <;> cases b <;> decide

/-- Instance of the amended C5 at 32 bits for the pair BKDR, SDBM. -/
theorem pairs_distinct_except_PJW_ELF_witness :
    (¬ (Algorithm.BKDR = Algorithm.PJW ∧ Algorithm.SDBM = Algorithm.ELF) →
      ¬ (Algorithm.BKDR = Algorithm.ELF ∧ Algorithm.SDBM = Algorithm.PJW) →
      ∃ buf, WellTerminated buf ∧ hash Algorithm.BKDR 32 buf ≠ hash Algorithm.SDBM 32 buf) ∧
    (∀ buf, hash Algorithm.PJW 32 buf = hash Algorithm.ELF 32 buf) :=
  pairs_distinct_except_PJW_ELF 32 (Or.inl rfl) Algorithm.BKDR Algorithm.SDBM (by decide)

/-! ## Termination, iteration count and reads -/

/-- On a buffer whose elements `pre` in front of a zero convert to non-zero words, each
function returns after exactly one round per element of `pre`. -/
theorem run_exact (a : Algorithm) (w : Nat) (pre post : List Nat)
    (hpre : ∀ c ∈ pre, toSizeT w c ≠ 0) :
    ∃ t, run a w (pre ++ 0 :: post) = some t ∧ t.iters = pre.length := by
  have seedless : ∀ {σ : Type} (body : σ → Nat → σ) (init : σ) (f : σ → Nat),
      ∃ t, (whileCh w body (pre ++ 0 :: post) 0 init 0 []).map (Trace.map f) = some t ∧
        t.iters = pre.length := by
    intro σ body init f
    rw [seedless_sentinel w body init pre post hpre]
    exact ⟨_, rfl, rfl⟩
  have seeded : ∀ (body : Nat → Nat → Nat) (seed : Nat),
      ∃ t, emptyGuard (pre ++ 0 :: post) (whileCh w body (pre ++ 0 :: post) 0 seed 0 [0])
          = some t ∧ t.iters = pre.length := by
    intro body seed
    rw [seeded_sentinel w body seed pre post hpre]
    by_cases hp : pre = []
    · subst hp
      exact ⟨_, rfl, rfl⟩
    · rw [if_neg hp]
      exact ⟨_, rfl, rfl⟩
  have plain : ∀ (body : Nat → Nat → Nat),
      ∃ t, whileCh w body (pre ++ 0 :: post) 0 0 0 [] = some t ∧ t.iters = pre.length := by
    intro body
    rw [seedless_sentinel w body 0 pre post hpre]
    exact ⟨_, rfl, rfl⟩
  cases a
  · exact plain _
  · exact plain _
  · exact seedless _ _ _
  · exact seedless _ _ _
  · exact seeded _ _
  · exact seeded _ _
  · exact seeded _ _
  · exact seeded _ _
  · exact seeded _ _
  · exact plain _
  · exact plain _

/-- On a buffer that holds a zero element each function returns, after at most one
round per element in front of the zero and without reading behind the zero. -/
theorem run_bounded (a : Algorithm) (w : Nat) (pre post : List Nat) :
    ∃ t, run a w (pre ++ 0 :: post) = some t ∧ t.iters ≤ pre.length ∧
      ∀ i ∈ t.reads, i ≤ pre.length := by
  have hw : ∀ {σ : Type} (body : σ → Nat → σ) (init : σ) (f : σ → Nat),
      ∃ t, (whileCh w body (pre ++ 0 :: post) 0 init 0 []).map (Trace.map f) = some t ∧
        t.iters ≤ pre.length ∧ ∀ i ∈ t.reads, i ≤ pre.length := by
    intro σ body init f
    obtain ⟨t, ht, hit, hrd⟩ := whileCh_bounded w body post pre 0 init 0 []
    refine ⟨Trace.map f t, by rw [ht]; rfl, by simpa [Trace.map] using hit, ?_⟩
    intro i hi
    rcases hrd i hi with h | h
    · simp at h
    · simpa using h
  have plain : ∀ (body : Nat → Nat → Nat),
      ∃ t, whileCh w body (pre ++ 0 :: post) 0 0 0 [] = some t ∧
        t.iters ≤ pre.length ∧ ∀ i ∈ t.reads, i ≤ pre.length := by
    intro body
    obtain ⟨t, ht, hit, hrd⟩ := whileCh_bounded w body post pre 0 0 0 []
    refine ⟨t, ht, by simpa using hit, ?_⟩
    intro i hi
    rcases hrd i hi with h | h
    · simp at h
    · simpa using h
  have seeded : ∀ (body : Nat → Nat → Nat) (seed : Nat),
      ∃ t, emptyGuard (pre ++ 0 :: post) (whileCh w body (pre ++ 0 :: post) 0 seed 0 [0])
          = some t ∧ t.iters ≤ pre.length ∧ ∀ i ∈ t.reads, i ≤ pre.length := by
    intro body seed
    obtain ⟨t, ht, hit, hrd⟩ := whileCh_bounded w body post pre 0 seed 0 [0]
    cases pre with
    | nil => exact ⟨⟨0, 0, [0]⟩, by simp [emptyGuard], by simp, by simp⟩
    | cons c pre =>
      by_cases hc : c = 0
      · exact ⟨⟨0, 0, [0]⟩, by simp [emptyGuard, hc], by simp, by simp⟩
      · refine ⟨t, by rw [ht]; simp [emptyGuard, hc], by simpa using hit, ?_⟩
        intro i hi
        rcases hrd i hi with h | h
        · rw [List.mem_singleton.mp h]; exact Nat.zero_le _
        · simpa using h
  cases a
  · exact plain _
  · exact plain _
  · exact hw _ _ _
  · exact hw _ _ _
  · exact seeded _ _
  · exact seeded _ _
  · exact seeded _ _
  · exact seeded _ _
  · exact seeded _ _
  · exact plain _
  · exact plain _

/-- C6, as stated, fails: at 32 bits the buffer 97, `2 ^ 32`, 98, 0 has three non-zero
elements in front of its first zero, and `BKDRHash` leaves its loop at the element
`2 ^ 32`, which converts to the zero word, after one iteration and two reads; no run
with one iteration per element in front of the zero exists. -/
theorem run_stops_at_wide_element :
    (∀ c ∈ [97, 4294967296, 98], c ≠ 0) ∧
    run Algorithm.BKDR 32 ([97, 4294967296, 98] ++ 0 :: []) = some ⟨97, 1, [0, 1]⟩ ∧
    ¬ ∃ t, run Algorithm.BKDR 32 ([97, 4294967296, 98] ++ 0 :: []) = some t ∧
      t.iters = [97, 4294967296, 98].length := by
  refine ⟨by decide, by decide, ?_⟩
  rintro ⟨t, ht, hi⟩
  have hrun : run Algorithm.BKDR 32 ([97, 4294967296, 98] ++ 0 :: []) = some ⟨97, 1, [0, 1]⟩ := by
    decide
  rw [hrun] at ht
  rw [← Option.some.inj ht] at hi
  exact absurd hi (by decide)

/-- C6, amended. Totality and bounded execution: on a buffer `pre ++ 0 :: post` (every
buffer that holds a zero, with `pre` the elements in front of its first zero), each of
the eleven functions returns (the out-of-bounds result `none` does not occur), reads
no index behind that of the zero and runs its loop body at most once per element of
`pre`; when every element of `pre` converts to a non-zero word, it runs the body
exactly once per element of `pre`. -/
theorem run_on_terminated_buffer (a : Algorithm) (w : Nat) (pre post : List Nat) :
    ∃ t, run a w (pre ++ 0 :: post) = some t ∧ (∀ i ∈ t.reads, i ≤ pre.length) ∧
      t.iters ≤ pre.length ∧ ((∀ c ∈ pre, toSizeT w c ≠ 0) → t.iters = pre.length) := by
  obtain ⟨t, ht, hit, hrd⟩ := run_bounded a w pre post
  refine ⟨t, ht, hrd, hit, ?_⟩
  intro hconv
  obtain ⟨u, hu, hiu⟩ := run_exact a w pre post hconv
  have htu : t = u := Option.some.inj (ht.symm.trans hu)
  rw [htu]
  exact hiu

/-- Instance of the amended C6: `JSHash` at 32 bits on "ab", sentinel, and two more
elements runs its body exactly twice. -/
theorem run_on_terminated_buffer_witness :
    ∃ t, run Algorithm.JS 32 ([97, 98] ++ 0 :: [7, 7]) = some t ∧
      (∀ i ∈ t.reads, i ≤ [97, 98].length) ∧ t.iters = [97, 98].length := by
  obtain ⟨t, ht, hrd, _, hex⟩ :=
    run_on_terminated_buffer Algorithm.JS 32 [97, 98] [7, 7]
  exact ⟨t, ht, hrd, hex (by decide)⟩

/-! ## Determinism -/

/-- The run of a function does not depend on the memory behind a zero element. -/
theorem run_post (a : Algorithm) (w : Nat) (pre post₁ post₂ : List Nat) :
    run a w (pre ++ 0 :: post₁) = run a w (pre ++ 0 :: post₂) := by
  have hg : ∀ (k₁ k₂ : Option (Trace Nat)), k₁ = k₂ →
      emptyGuard (pre ++ 0 :: post₁) k₁ = emptyGuard (pre ++ 0 :: post₂) k₂ := by
    intro k₁ k₂ hk
    subst hk
    cases pre <;> rfl
  cases a <;>
    simp only [run, BKDRHashRun, SDBMHashRun, RSHashRun, APHashRun, JSHashRun, DEKHashRun,
      FNVHashRun, DJBHashRun, DJB2HashRun, PJWHashRun, ELFHashRun] <;>
    first
    | exact whileCh_post w _ post₁ post₂ pre 0 _ 0 []
    | exact congrArg _ (whileCh_post w _ post₁ post₂ pre 0 _ 0 [])
    | exact hg _ _ (whileCh_post w _ post₁ post₂ pre 0 _ 0 [0])

/-- The returned value is the final state of the run. -/
theorem hash_eq_run (a : Algorithm) (w : Nat) (buf : List Nat) :
    hash a w buf = (run a w buf).map Trace.state := by
  cases a <;> rfl

/-- C7. Determinism as a two-run property: two buffers that agree up to and including
a zero sentinel are hashed by each function to the same value, whatever the two
buffers hold behind the sentinel; and that value exists. -/
theorem hash_deterministic (a : Algorithm) (w : Nat) (pre post₁ post₂ : List Nat) :
    ∃ h, hash a w (pre ++ 0 :: post₁) = some h ∧ hash a w (pre ++ 0 :: post₂) = some h := by
  obtain ⟨t, ht, _⟩ := run_bounded a w pre post₁
  refine ⟨t.state, ?_, ?_⟩
  · rw [hash_eq_run, ht]; rfl
  · rw [hash_eq_run, ← run_post a w pre post₁ post₂, ht]; rfl

/-! ## Multiply-and-add folds -/

theorem polySum_append_singleton (b : Nat) (s : List Nat) (c : Nat) :
    polySum b (s ++ [c]) = polySum b s * b + c := by
  induction s with
  | nil => simp [polySum]
  | cons d s ih =>
    show d * b ^ (s ++ [c]).length + polySum b (s ++ [c]) =
      (d * b ^ s.length + polySum b s) * b + c
    rw [ih, List.length_append, List.length_singleton, pow_succ]
    ring

theorem mulAdd_mod_left (m a b c : Nat) : (a % m * b + c) % m = (a * b + c) % m := by
  have e : a % m * b % m = a * b % m := by rw [Nat.mul_mod, Nat.mod_mod, ← Nat.mul_mod]
  rw [Nat.add_mod, e, ← Nat.add_mod]

/-- A fold of `h ↦ (h * b + c) mod m` is the polynomial in `b`, modulo `m`. -/
theorem foldl_mulAdd_mod (m b : Nat) (s : List Nat) :
    ∀ h, (s.foldl (fun h c => (h * b + c) % m) h) % m = (h * b ^ s.length + polySum b s) % m := by
  induction s with
  | nil => intro h; simp [polySum]
  | cons c s ih =>
    intro h
    simp only [List.foldl_cons, ih, List.length_cons, polySum]
    rw [mulAdd_mod_left]
    congr 1
    ring

/-- After at least one step the fold is already reduced. -/
theorem foldl_mulAdd_reduced (m b : Nat) (hm : 0 < m) (s : List Nat) (hs : s ≠ []) (h : Nat) :
    (s.foldl (fun h c => (h * b + c) % m) h) % m = s.foldl (fun h c => (h * b + c) % m) h := by
  obtain ⟨s', c, rfl⟩ : ∃ s' c, s = s' ++ [c] :=
    ⟨s.dropLast, s.getLast hs, (List.dropLast_append_getLast hs).symm⟩
  simp only [List.foldl_append, List.foldl_cons, List.foldl_nil]
  exact Nat.mod_eq_of_lt (Nat.mod_lt _ hm)

theorem BKDRBody_eq (w : Nat) : BKDRBody w = fun h c => (h * 131 + c) % 2 ^ w := by
  funext h c
  simp [BKDRBody, wadd, wmul, Nat.mod_add_mod]

theorem DJBBody_eq (w : Nat) : DJBBody w = fun h c => (h * 33 + c) % 2 ^ w := by
  funext h c
  simp only [DJBBody, wadd, wshl, Nat.shiftLeft_eq, Nat.mod_add_mod, Nat.add_mod_mod]
  congr 1
  ring

/-- The step of `BKDRHash` on a converted element. -/
theorem BKDRBody_conv (w h c : Nat) : BKDRBody w h (toSizeT w c) = (h * 131 + c) % 2 ^ w := by
  rw [BKDRBody_eq]
  simp only [toSizeT]
  exact Nat.add_mod_mod _ _ _

/-- The step of `DJBHash` on a converted element. -/
theorem DJBBody_conv (w h c : Nat) : DJBBody w h (toSizeT w c) = (h * 33 + c) % 2 ^ w := by
  rw [DJBBody_eq]
  simp only [toSizeT]
  exact Nat.add_mod_mod _ _ _

/-- A fold over the converted elements is a fold of the step composed with the
conversion. -/
theorem foldl_conv (w : Nat) (g f : Nat → Nat → Nat) (hgf : ∀ h c, g h (toSizeT w c) = f h c)
    (s : List Nat) (h : Nat) : (s.map (toSizeT w)).foldl g h = s.foldl f h := by
  rw [List.foldl_map]
  congr 1
  funext x c
  exact hgf x c

/-- C8, as stated, fails: at 32 bits the characters 97, `2 ^ 32`, 98 are non-zero, the
loop of `BKDRHash` ends at `2 ^ 32` (it converts to the zero word) and returns 97,
where the sum `Σ c_i * 131^(n-1-i)` reduced modulo `2 ^ 32` is 1664715; and appending
98 to the two characters 97, `2 ^ 32` leaves the result at 97 instead of giving
`(97 * 131 + 98) mod 2 ^ 32`. -/
theorem BKDR_wide_char_breaks_closed_form :
    (∀ c ∈ [97, 4294967296, 98], c ≠ 0) ∧
    BKDRHash 32 [97, 4294967296, 98, 0] = some 97 ∧
    polySum 131 [97, 4294967296, 98] % 2 ^ 32 = 1664715 ∧
    BKDRHash 32 [97, 4294967296, 98, 0] ≠ some (polySum 131 [97, 4294967296, 98] % 2 ^ 32) ∧
    BKDRHash 32 [97, 4294967296, 0] = some 97 ∧
    BKDRHash 32 [97, 4294967296, 98, 0] ≠ some ((97 * 131 + 98) % 2 ^ 32) := by
  decide

/-- C8, amended. BKDR wraps modulo the word width and nothing else: for characters
`c_0 .. c_(n-1)` that convert to non-zero words (`c_i mod 2 ^ w ≠ 0`; non-zero
characters that fit the word do), `BKDRHash` returns `(Σ c_i * 131^(n-1-i)) mod 2 ^ w`,
the sum taken over the natural numbers; and one more such character `c` turns the
value `h` into `(h * 131 + c) mod 2 ^ w`. -/
theorem BKDRHash_closed_form (w : Nat) (s post : List Nat)
    (hconv : ∀ c ∈ s, toSizeT w c ≠ 0) :
    BKDRHash w (s ++ 0 :: post) = some (polySum 131 s % 2 ^ w) ∧
    ∀ c, toSizeT w c ≠ 0 →
      ∃ h, BKDRHash w (s ++ 0 :: post) = some h ∧
        BKDRHash w (s ++ c :: 0 :: post) = some ((h * 131 + c) % 2 ^ w) := by
  have key : ∀ (t : List Nat), (∀ c ∈ t, toSizeT w c ≠ 0) →
      BKDRHash w (t ++ 0 :: post) = some (polySum 131 t % 2 ^ w) := by
    intro t ht
    rw [BKDRHash_sentinel w t post ht,
      foldl_conv w (BKDRBody w) (fun h c => (h * 131 + c) % 2 ^ w) (BKDRBody_conv w)]
    congr 1
    rcases List.eq_nil_or_concat t with rfl | ⟨t', c, rfl⟩
    · simp [polySum]
    · rw [← foldl_mulAdd_reduced (2 ^ w) 131 (Nat.two_pow_pos w) _ (by simp) 0,
        foldl_mulAdd_mod]
      simp
  refine ⟨key s hconv, ?_⟩
  intro c hc
  refine ⟨_, key s hconv, ?_⟩
  have happ : s ++ c :: 0 :: post = (s ++ [c]) ++ 0 :: post := by simp
  rw [happ, key (s ++ [c])
    (by intro d hd
        rcases List.mem_append.mp hd with h | h
        · exact hconv d h
        · rw [List.mem_singleton.mp h]; exact hc),
    polySum_append_singleton]
  congr 1
  exact (mulAdd_mod_left _ _ _ _).symm

/-- Instance of the amended C8 at 32 bits for the characters 97, `2 ^ 32 + 1`, 98. -/
theorem BKDRHash_closed_form_witness :
    BKDRHash 32 ([97, 4294967297, 98] ++ 0 :: []) =
      some (polySum 131 [97, 4294967297, 98] % 2 ^ 32) ∧
    ∀ c, toSizeT 32 c ≠ 0 →
      ∃ h, BKDRHash 32 ([97, 4294967297, 98] ++ 0 :: []) = some h ∧
        BKDRHash 32 ([97, 4294967297, 98] ++ c :: 0 :: []) = some ((h * 131 + c) % 2 ^ 32) :=
  BKDRHash_closed_form 32 [97, 4294967297, 98] [] (by decide)

/-! ## Word-size dependence -/

/-- On elements that end the 32-bit loop only where they end the 64-bit loop, the
32-bit loop of BKDR tracks the 64-bit loop modulo `2 ^ 32`. -/
theorem BKDR_loop_32_64 :
    ∀ (buf : List Nat), (∀ c ∈ buf, toSizeT 32 c = 0 → toSizeT 64 c = 0) →
    ∀ (pos h n : Nat) (rd : List Nat),
      (whileCh 32 (BKDRBody 32) buf pos (h % 2 ^ 32) n rd).map Trace.state =
        ((whileCh 64 (BKDRBody 64) buf pos h n rd).map Trace.state).map (· % 2 ^ 32) := by
  intro buf
  induction buf with
  | nil => intro _ pos h n rd; rfl
  | cons c buf ih =>
    intro hconv pos h n rd
    rw [whileCh_cons, whileCh_cons]
    by_cases h32 : toSizeT 32 c = 0
    · rw [if_pos h32, if_pos (hconv c (List.mem_cons_self c buf) h32)]
      rfl
    · have h64 : toSizeT 64 c ≠ 0 := by
        intro h0
        apply h32
        simp only [toSizeT] at h0 ⊢
        omega
      rw [if_neg h32, if_neg h64]
      have hstep : BKDRBody 32 (h % 2 ^ 32) (toSizeT 32 c) =
          BKDRBody 64 h (toSizeT 64 c) % 2 ^ 32 := by
        simp only [BKDRBody, wadd, wmul, toSizeT]
        omega
      rw [hstep]
      exact ih (fun d hd => hconv d (List.mem_cons_of_mem c hd)) _ _ _ _

/-- C9, as stated, fails in its second half: on the buffer `2 ^ 32`, 5, 0 the 32-bit
`BKDRHash` stops at the first element (it converts to the zero 32-bit word) and
returns 0, while the 64-bit result 562640715781 reduced modulo `2 ^ 32` is 5. -/
theorem BKDR_wide_char_breaks_32_vs_64 :
    BKDRHash 32 [4294967296, 5, 0] = some 0 ∧
    BKDRHash 64 [4294967296, 5, 0] = some 562640715781 ∧
    562640715781 % 2 ^ 32 = 5 ∧
    BKDRHash 32 [4294967296, 5, 0] ≠ (BKDRHash 64 [4294967296, 5, 0]).map (· % 2 ^ 32) := by
  decide

/-- C9, amended. Word-size dependence of BKDR: on the five characters "aaaaa" the
32-bit and the 64-bit results differ (3016430809 against 28786234585), so a
well-terminated sequence of 8-bit characters separates the two widths; and on every
buffer in which an element that converts to the zero 32-bit word also converts to the
zero 64-bit word (every buffer of elements below `2 ^ 32` is one), the 32-bit result is
the 64-bit result reduced modulo `2 ^ 32`. -/
theorem BKDRHash_32_vs_64 (buf : List Nat)
    (hconv : ∀ c ∈ buf, toSizeT 32 c = 0 → toSizeT 64 c = 0) :
    (BKDRHash 32 [97, 97, 97, 97, 97, 0] = some 3016430809 ∧
      BKDRHash 64 [97, 97, 97, 97, 97, 0] = some 28786234585) ∧
    (∃ b, WellTerminated b ∧ (∀ c ∈ b, c < 256) ∧ BKDRHash 32 b ≠ BKDRHash 64 b) ∧
    BKDRHash 32 buf = (BKDRHash 64 buf).map (· % 2 ^ 32) := by
  refine ⟨by decide, ⟨[97, 97, 97, 97, 97, 0], by decide, by decide, by decide⟩, ?_⟩
  exact BKDR_loop_32_64 buf hconv 0 0 0 []

/-- Instance of the amended C9 on "aaaaa", where the 64-bit result exceeds `2 ^ 32`. -/
theorem BKDRHash_32_vs_64_witness :
    (BKDRHash 32 [97, 97, 97, 97, 97, 0] = some 3016430809 ∧
      BKDRHash 64 [97, 97, 97, 97, 97, 0] = some 28786234585) ∧
    (∃ b, WellTerminated b ∧ (∀ c ∈ b, c < 256) ∧ BKDRHash 32 b ≠ BKDRHash 64 b) ∧
    BKDRHash 32 [97, 97, 97, 97, 97, 0] =
      (BKDRHash 64 [97, 97, 97, 97, 97, 0]).map (· % 2 ^ 32) :=
  BKDRHash_32_vs_64 [97, 97, 97, 97, 97, 0] (by decide)

/-! ## DJB as multiplication by 33 -/

/-- C10, as stated, fails: at 32 bits the characters 97, `2 ^ 32`, 98 are non-zero, the
loop of `DJBHash` ends at `2 ^ 32` (it converts to the zero word) and returns 177670,
where the fold of `h ↦ (h * 33 + c) mod 2 ^ 32` from 5381 over the three characters is
193482728. -/
theorem DJBHash_ne_DJBSpec_wide_char :
    ([97, 4294967296, 98] ≠ [] ∧ ∀ c ∈ [97, 4294967296, 98], c ≠ 0) ∧
    DJBHash 32 [97, 4294967296, 98, 0] = some 177670 ∧
    DJBSpec 32 [97, 4294967296, 98] = 193482728 ∧
    DJBHash 32 [97, 4294967296, 98, 0] ≠ some (DJBSpec 32 [97, 4294967296, 98]) := by
  decide

/-- C10, amended. DJB is multiplication by 33: on a non-empty sequence of characters
that convert to non-zero words (`c mod 2 ^ w ≠ 0`; non-zero characters that fit the
word do), `DJBHash` (`hash += (hash << 5) + ch` from 5381) returns the left fold of
`h ↦ (h * 33 + c) mod 2 ^ w` from 5381, and that fold is
`(5381 * 33^n + Σ c_i * 33^(n-1-i)) mod 2 ^ w` for the `n` characters. -/
theorem DJBHash_eq_DJBSpec (w : Nat) (s post : List Nat) (hne : s ≠ [])
    (hconv : ∀ c ∈ s, toSizeT w c ≠ 0) :
    DJBHash w (s ++ 0 :: post) = some (DJBSpec w s) ∧
    DJBSpec w s = (5381 * 33 ^ s.length + polySum 33 s) % 2 ^ w := by
  have hpos : 0 < 2 ^ w := Nat.two_pow_pos w
  have hspec : DJBSpec w s = (5381 * 33 ^ s.length + polySum 33 s) % 2 ^ w := by
    unfold DJBSpec
    rw [← foldl_mulAdd_reduced (2 ^ w) 33 hpos s hne 5381, foldl_mulAdd_mod]
  refine ⟨?_, hspec⟩
  rw [DJBHash_sentinel w s post hconv hne,
    foldl_conv w (DJBBody w) (fun h c => (h * 33 + c) % 2 ^ w) (DJBBody_conv w), hspec]
  congr 1
  rw [← foldl_mulAdd_reduced (2 ^ w) 33 hpos s hne (toSizeT w 5381), foldl_mulAdd_mod]
  simp only [toSizeT]
  exact mulAdd_mod_left _ _ _ _

/-- Instance of the amended C10 at 32 bits for the characters 97, `2 ^ 32 + 1`, 98. -/
theorem DJBHash_eq_DJBSpec_witness :
    DJBHash 32 ([97, 4294967297, 98] ++ 0 :: []) = some (DJBSpec 32 [97, 4294967297, 98]) ∧
    DJBSpec 32 [97, 4294967297, 98] =
      (5381 * 33 ^ [97, 4294967297, 98].length + polySum 33 [97, 4294967297, 98]) % 2 ^ 32 :=
  DJBHash_eq_DJBSpec 32 [97, 4294967297, 98] [] (by decide) (by decide)

/-! ## The seeded functions as folds of their rules -/

theorem xor_mod_two_pow (a b n : Nat) : (a ^^^ b) % 2 ^ n = a % 2 ^ n ^^^ b % 2 ^ n := by
  apply Nat.eq_of_testBit_eq
  intro i
  simp only [Nat.testBit_mod_two_pow, Nat.testBit_xor]
  cases decide (i < n) <;> simp

theorem shiftRight_lt {h m : Nat} (k : Nat) (hh : h < m) : h >>> k < m :=
  lt_of_le_of_lt (by rw [Nat.shiftRight_eq_div_pow]; exact Nat.div_le_self _ _) hh

/-- Two step functions that agree on reduced states and on the characters of `s`, the
second always returning a reduced state, have the same fold over `s`. -/
theorem foldl_congr_reduced (m : Nat) (g f : Nat → Nat → Nat) (hf : ∀ h c, f h c < m) :
    ∀ (s : List Nat) (h : Nat), h < m → (∀ h c, h < m → c ∈ s → g h c = f h c) →
      s.foldl g h = s.foldl f h := by
  intro s
  induction s with
  | nil => intro h _ _; rfl
  | cons c s ih =>
    intro h hh hgf
    simp only [List.foldl_cons]
    rw [hgf h c hh (List.mem_cons_self c s)]
    exact ih (f h c) (hf h c) (fun h' c' hh' hc' => hgf h' c' hh' (List.mem_cons_of_mem c hc'))

theorem xor_mod_right (a c n : Nat) : (a ^^^ c % 2 ^ n) % 2 ^ n = (a ^^^ c) % 2 ^ n := by
  rw [xor_mod_two_pow, Nat.mod_mod, ← xor_mod_two_pow]

/-- The step of `JSHash` on a reduced state and a converted element. -/
theorem JSBody_conv {w h : Nat} (c : Nat) (hh : h < 2 ^ w) :
    JSBody w h (toSizeT w c) = (h ^^^ ((h <<< 5) + c + (h >>> 2))) % 2 ^ w := by
  simp only [JSBody, wadd, wshl, toSizeT]
  rw [xor_mod_two_pow, Nat.mod_eq_of_lt hh]
  congr 1
  have e : (h <<< 5 % 2 ^ w + c % 2 ^ w) % 2 ^ w = (h <<< 5 + c) % 2 ^ w :=
    (Nat.add_mod _ _ _).symm
  rw [Nat.mod_add_mod, Nat.add_mod (h <<< 5 % 2 ^ w + c % 2 ^ w) (h >>> 2), e, ← Nat.add_mod]

/-- The step of `DEKHash` on a reduced state and a converted element. -/
theorem DEKBody_conv {w h : Nat} (c : Nat) (hh : h < 2 ^ w) :
    DEKBody w h (toSizeT w c) = (((h <<< 5) ^^^ (h >>> 27)) ^^^ c) % 2 ^ w := by
  simp only [DEKBody, wshl, toSizeT]
  rw [xor_mod_two_pow, xor_mod_two_pow (h <<< 5), Nat.mod_eq_of_lt (shiftRight_lt 27 hh)]

/-- The step of `FNVHash` on a converted element. -/
theorem FNVBody_conv (w h c : Nat) :
    FNVBody w h (toSizeT w c) = ((h * 16777619) ^^^ c) % 2 ^ w := by
  simp only [FNVBody, wmul, toSizeT]
  rw [xor_mod_two_pow]

/-- The step of `DJB2Hash` on a converted element. -/
theorem DJB2Body_conv (w h c : Nat) :
    DJB2Body w h (toSizeT w c) = ((h * 33) ^^^ c) % 2 ^ w := by
  simp only [DJB2Body, wmul, toSizeT]
  rw [xor_mod_two_pow]

theorem seed_fits {w k seed : Nat} (hw : k ≤ w) (hs : seed < 2 ^ k) : seed < 2 ^ w :=
  lt_of_lt_of_le hs (Nat.pow_le_pow_right (by decide) hw)

/-- A fold over the converted elements from a reduced state, for a step that agrees
with `f` on reduced states. -/
theorem foldl_conv_reduced (w : Nat) (g f : Nat → Nat → Nat) (hf : ∀ h c, f h c < 2 ^ w)
    (hgf : ∀ h c, h < 2 ^ w → g h (toSizeT w c) = f h c) (s : List Nat) (h : Nat)
    (hh : h < 2 ^ w) : (s.map (toSizeT w)).foldl g h = s.foldl f h := by
  rw [List.foldl_map]
  exact foldl_congr_reduced (2 ^ w) _ f hf s h hh (fun x c hx _ => hgf x c hx)

/-- A step that does not see the bits of the state above the word gives the same fold
from a seed and from the reduced seed, on a non-empty sequence. -/
theorem foldl_reduced_seed (m : Nat) (f : Nat → Nat → Nat) (hmod : ∀ h c, f (h % m) c = f h c)
    (s : List Nat) (hs : s ≠ []) (seed : Nat) : s.foldl f (seed % m) = s.foldl f seed := by
  cases s with
  | nil => exact absurd rfl hs
  | cons c s => simp only [List.foldl_cons, hmod]

theorem mul_xor_mod_left (m k h c : Nat) :
    ((h % 2 ^ m * k) ^^^ c) % 2 ^ m = ((h * k) ^^^ c) % 2 ^ m := by
  rw [xor_mod_two_pow, xor_mod_two_pow (h * k), Nat.mul_mod, Nat.mod_mod, ← Nat.mul_mod]

/-- C11, as stated, fails. At 32 bits the sequence `2 ^ 32`, 7 is non-empty and its
characters are non-zero; the guard passes, the loop ends at `2 ^ 32` (it converts to
the zero word) and each of the four functions returns its bare seed, not the fold. And
a word of 16 bits does not hold the seed 1315423911: on "a" `JSHash` returns 49229 and
`DEKHash` 54401 where the folds from the seed give 77 and 54408. -/
theorem seeded_hash_ne_fold :
    (([4294967296, 7] ≠ [] ∧ ∀ c ∈ [4294967296, 7], c ≠ 0) ∧
      (JSHash 32 [4294967296, 7, 0] = some 1315423911 ∧
        JSHash 32 [4294967296, 7, 0] ≠ some (JSSpec 32 [4294967296, 7])) ∧
      (DEKHash 32 [4294967296, 7, 0] = some 1315423911 ∧
        DEKHash 32 [4294967296, 7, 0] ≠ some (DEKSpec 32 [4294967296, 7])) ∧
      (FNVHash 32 [4294967296, 7, 0] = some 2166136261 ∧
        FNVHash 32 [4294967296, 7, 0] ≠ some (FNVSpec 32 [4294967296, 7])) ∧
      (DJB2Hash 32 [4294967296, 7, 0] = some 5381 ∧
        DJB2Hash 32 [4294967296, 7, 0] ≠ some (DJB2Spec 32 [4294967296, 7]))) ∧
    ((JSHash 16 [97, 0] = some 49229 ∧ JSSpec 16 [97] = 77) ∧
      (DEKHash 16 [97, 0] = some 54401 ∧ DEKSpec 16 [97] = 54408)) := by
  decide

/-- C11, amended. Seeded functions and the empty short-circuit: on a non-empty sequence
of characters that convert to non-zero words (`c mod 2 ^ w ≠ 0`; non-zero characters
that fit the word do), `JSHash` and `DEKHash`, for a word of at least 31 bits (it
holds their seed), and `FNVHash` and `DJB2Hash`, for every word width, return the left
fold of their rule modulo `2 ^ w` from their seed; on the empty input the four return
0 where the fold alone is the seed, so the guard changes the result of the empty
input and of no other. -/
theorem seeded_hash_eq_fold (w : Nat) (s post : List Nat) (hne : s ≠ [])
    (hconv : ∀ c ∈ s, toSizeT w c ≠ 0) :
    (31 ≤ w → JSHash w (s ++ 0 :: post) = some (JSSpec w s) ∧
      DEKHash w (s ++ 0 :: post) = some (DEKSpec w s)) ∧
    (FNVHash w (s ++ 0 :: post) = some (FNVSpec w s) ∧
      DJB2Hash w (s ++ 0 :: post) = some (DJB2Spec w s)) ∧
    (JSHash w (0 :: post) = some 0 ∧ JSSpec w [] = 1315423911) ∧
    (DEKHash w (0 :: post) = some 0 ∧ DEKSpec w [] = 1315423911) ∧
    (FNVHash w (0 :: post) = some 0 ∧ FNVSpec w [] = 2166136261) ∧
    (DJB2Hash w (0 :: post) = some 0 ∧ DJB2Spec w [] = 5381) := by
  have hpos : 0 < 2 ^ w := Nat.two_pow_pos w
  have hempty : ∀ a : Algorithm, hash a w (0 :: post) = some 0 := by
    intro a
    cases a <;>
      simp [hash, BKDRHash, BKDRHashRun, SDBMHash, SDBMHashRun, RSHash, RSHashRun, APHash,
        APHashRun, JSHash, JSHashRun, DEKHash, DEKHashRun, FNVHash, FNVHashRun, DJBHash,
        DJBHashRun, DJB2Hash, DJB2HashRun, PJWHash, PJWHashRun, ELFHash, ELFHashRun,
        whileCh_cons, toSizeT_zero, emptyGuard, Trace.map]
  refine ⟨fun hw => ⟨?_, ?_⟩, ⟨?_, ?_⟩, ⟨hempty Algorithm.JS, rfl⟩, ⟨hempty Algorithm.DEK, rfl⟩,
    ⟨hempty Algorithm.FNV, rfl⟩, ⟨hempty Algorithm.DJB2, rfl⟩⟩
  · have hseed : (1315423911 : Nat) < 2 ^ w := seed_fits hw (by decide)
    rw [JSHash_sentinel w s post hconv hne, toSizeT_of_lt hseed]
    congr 1
    exact foldl_conv_reduced w (JSBody w) _ (fun _ _ => Nat.mod_lt _ hpos)
      (fun h c hh => JSBody_conv c hh) s _ hseed
  · have hseed : (1315423911 : Nat) < 2 ^ w := seed_fits hw (by decide)
    rw [DEKHash_sentinel w s post hconv hne, toSizeT_of_lt hseed]
    congr 1
    exact foldl_conv_reduced w (DEKBody w) _ (fun _ _ => Nat.mod_lt _ hpos)
      (fun h c hh => DEKBody_conv c hh) s _ hseed
  · rw [FNVHash_sentinel w s post hconv hne,
      foldl_conv w (FNVBody w) (fun h c => ((h * 16777619) ^^^ c) % 2 ^ w) (FNVBody_conv w)]
    congr 1
    exact foldl_reduced_seed (2 ^ w) _ (fun h c => mul_xor_mod_left w 16777619 h c) s hne _
  · rw [DJB2Hash_sentinel w s post hconv hne,
      foldl_conv w (DJB2Body w) (fun h c => ((h * 33) ^^^ c) % 2 ^ w) (DJB2Body_conv w)]
    congr 1
    exact foldl_reduced_seed (2 ^ w) _ (fun h c => mul_xor_mod_left w 33 h c) s hne _

/-- Instance of the amended C11 at 32 bits for the characters 97, `2 ^ 32 + 1`, 98. -/
theorem seeded_hash_eq_fold_witness :
    (JSHash 32 ([97, 4294967297, 98] ++ 0 :: []) = some (JSSpec 32 [97, 4294967297, 98]) ∧
      DEKHash 32 ([97, 4294967297, 98] ++ 0 :: []) = some (DEKSpec 32 [97, 4294967297, 98])) ∧
    (FNVHash 32 ([97, 4294967297, 98] ++ 0 :: []) = some (FNVSpec 32 [97, 4294967297, 98]) ∧
      DJB2Hash 32 ([97, 4294967297, 98] ++ 0 :: []) =
        some (DJB2Spec 32 [97, 4294967297, 98])) :=
  have h := seeded_hash_eq_fold 32 [97, 4294967297, 98] [] (by decide) (by decide)
  ⟨h.1 (by decide), h.2.1⟩

/-! ## The multiplier schedule of RS -/

/-- From the `k`-th multiplier on, the loop of `RSHash` on the converted elements
follows the schedule. -/
theorem RS_fold_eq (w : Nat) :
    ∀ (s : List Nat) (k h : Nat),
      ((s.map (toSizeT w)).foldl (RSBody w) (h, (63689 * 378551 ^ k) % 2 ^ w)).1 =
        RSSpecFrom w k s h := by
  intro s
  induction s with
  | nil => intro k h; rfl
  | cons c s ih =>
    intro k h
    have hm : wmul w ((63689 * 378551 ^ k) % 2 ^ w) 378551 =
        (63689 * 378551 ^ (k + 1)) % 2 ^ w := by
      simp only [wmul]
      rw [Nat.mul_mod, Nat.mod_mod, ← Nat.mul_mod, pow_succ, Nat.mul_assoc]
    have hh : wadd w (wmul w h ((63689 * 378551 ^ k) % 2 ^ w)) (toSizeT w c) =
        (h * ((63689 * 378551 ^ k) % 2 ^ w) + c) % 2 ^ w := by
      simp only [wadd, wmul, toSizeT]
      rw [← Nat.add_mod]
    simp only [List.map_cons, List.foldl_cons, RSBody, RSSpecFrom]
    rw [hm, hh]
    exact ih (k + 1) _

/-- C12, as stated, fails: at 32 bits the characters 97, `2 ^ 32`, 98 are non-zero, the
loop of `RSHash` ends at `2 ^ 32` (it converts to the zero word) and returns 97, where
the schedule over the three characters gives 2685443353. -/
theorem RSHash_ne_RSSpec_wide_char :
    (∀ c ∈ [97, 4294967296, 98], c ≠ 0) ∧
    RSHash 32 [97, 4294967296, 98, 0] = some 97 ∧
    RSSpec 32 [97, 4294967296, 98] = 2685443353 ∧
    RSHash 32 [97, 4294967296, 98, 0] ≠ some (RSSpec 32 [97, 4294967296, 98]) := by
  decide

/-- C12, amended. RS multiplier schedule: for characters `c_0 .. c_(n-1)` that convert
to non-zero words (`c_i mod 2 ^ w ≠ 0`; non-zero characters that fit the word do),
`RSHash` returns the result of starting from `h = 0` and setting, for `k = 0 .. n-1`
in order, `h = (h * m_k + c_k) mod 2 ^ w` with the multiplier
`m_k = (63689 * 378551 ^ k) mod 2 ^ w`. -/
theorem RSHash_eq_RSSpec (w : Nat) (s post : List Nat) (hconv : ∀ c ∈ s, toSizeT w c ≠ 0) :
    RSHash w (s ++ 0 :: post) = some (RSSpec w s) := by
  rw [RSHash_sentinel w s post hconv]
  congr 1
  have h0 : toSizeT w 63689 = (63689 * 378551 ^ 0) % 2 ^ w := by simp [toSizeT]
  rw [h0]
  exact RS_fold_eq w s 0 0

/-- Instance of the amended C12 at 32 bits for the characters 97, `2 ^ 32 + 1`, 98. -/
theorem RSHash_eq_RSSpec_witness :
    RSHash 32 ([97, 4294967297, 98] ++ 0 :: []) = some (RSSpec 32 [97, 4294967297, 98]) :=
  RSHash_eq_RSSpec 32 [97, 4294967297, 98] [] (by decide)

/-! ## The alternation of AP -/

/-- From position `i` on, the loop of `APHash` on the converted elements follows the
alternation by parity. -/
theorem AP_fold_eq (w : Nat) :
    ∀ (s : List Nat) (i h : Nat), h < 2 ^ w →
      ((s.map (toSizeT w)).foldl (APBody w) (h, i)).1 = APSpecFrom w i s h := by
  intro s
  induction s with
  | nil => intro i h _; rfl
  | cons c s ih =>
    intro i h hh
    have hpos : 0 < 2 ^ w := Nat.two_pow_pos w
    have h3 : h >>> 3 < 2 ^ w := shiftRight_lt 3 hh
    have h5 : h >>> 5 < 2 ^ w := shiftRight_lt 5 hh
    have hx : (h <<< 11 ^^^ c ^^^ h >>> 5) % 2 ^ w =
        wshl w h 11 ^^^ toSizeT w c ^^^ h >>> 5 := by
      rw [xor_mod_two_pow, xor_mod_two_pow, Nat.mod_eq_of_lt h5]
      rfl
    have hstep : (APBody w (h, i) (toSizeT w c)) =
        ((if i % 2 = 0 then
            (h ^^^ ((h <<< 7) ^^^ c ^^^ (h >>> 3))) % 2 ^ w
          else
            (h ^^^ (2 ^ w - 1 - ((h <<< 11) ^^^ c ^^^ (h >>> 5)) % 2 ^ w)) % 2 ^ w), i + 1) := by
      simp only [APBody, Nat.and_one_is_mod]
      congr 1
      by_cases hi : i % 2 = 0
      · rw [if_pos hi, if_pos hi, xor_mod_two_pow, xor_mod_two_pow, xor_mod_two_pow,
          Nat.mod_eq_of_lt hh, Nat.mod_eq_of_lt h3]
        rfl
      · rw [if_neg hi, if_neg hi, xor_mod_two_pow, Nat.mod_eq_of_lt hh, hx]
        congr 1
        simp only [wnot]
        exact (Nat.mod_eq_of_lt (by omega)).symm
    simp only [List.map_cons, List.foldl_cons, APSpecFrom]
    rw [hstep]
    refine ih (i + 1) _ ?_
    split <;> exact Nat.mod_lt _ hpos

/-- C13, as stated, fails: at 32 bits the characters 97, `2 ^ 32`, 98 are non-zero, the
loop of `APHash` ends at `2 ^ 32` (it converts to the zero word) and returns 97, where
the alternation over the three characters gives 511223692. -/
theorem APHash_ne_APSpec_wide_char :
    (∀ c ∈ [97, 4294967296, 98], c ≠ 0) ∧
    APHash 32 [97, 4294967296, 98, 0] = some 97 ∧
    APSpec 32 [97, 4294967296, 98] = 511223692 ∧
    APHash 32 [97, 4294967296, 98, 0] ≠ some (APSpec 32 [97, 4294967296, 98]) := by
  decide

/-- C13, amended. AP index alternation: for characters `c_0 .. c_(n-1)` that convert to
non-zero words (`c_i mod 2 ^ w ≠ 0`; non-zero characters that fit the word do),
`APHash` returns the result of starting from `h = 0` and processing the character at
0-based position `i` with `h = h xor ((h << 7) xor c xor (h >> 3))` when `i` is even
and with `h = h xor not((h << 11) xor c xor (h >> 5))` when `i` is odd, at word width
`w`; the first character takes the even rule. -/
theorem APHash_eq_APSpec (w : Nat) (s post : List Nat) (hconv : ∀ c ∈ s, toSizeT w c ≠ 0) :
    APHash w (s ++ 0 :: post) = some (APSpec w s) := by
  rw [APHash_sentinel w s post hconv]
  congr 1
  exact AP_fold_eq w s 0 0 (Nat.two_pow_pos w)

/-- Instance of the amended C13 at 32 bits for the characters 97, `2 ^ 32 + 1`, 98, 100. -/
theorem APHash_eq_APSpec_witness :
    APHash 32 ([97, 4294967297, 98, 100] ++ 0 :: []) =
      some (APSpec 32 [97, 4294967297, 98, 100]) :=
  APHash_eq_APSpec 32 [97, 4294967297, 98, 100] [] (by decide)

/-! ## The constants of PJW and ELF -/

/-- C14. PJW/ELF constants are derived from the word width: for `w = 32` and `w = 64`,
`TotalBits = w`, `OneEighth = w / 8`, `ThreeQuarters = 3 * w / 4` and
`HighBits = ((2 ^ w - 1) << (w - w / 8)) mod 2 ^ w`, the mask whose set bits are
exactly the top `w / 8` bits; the values are 4, 24, 0xF0000000 at 32 bits and
8, 48, 0xFF00000000000000 at 64 bits.  `PJWHash` and `ELFHash` declare the same four
constants, which `PJWBody` and `ELFBody` share here. -/
theorem PJW_ELF_constants (w : Nat) (hw : w = 32 ∨ w = 64) :
    (TotalBits w = w ∧ OneEighth w = w / 8 ∧ ThreeQuarters w = 3 * w / 4 ∧
      HighBits w = ((2 ^ w - 1) <<< (w - w / 8)) % 2 ^ w) ∧
    (∀ i, (HighBits w).testBit i = true ↔ w - w / 8 ≤ i ∧ i < w) ∧
    (TotalBits 32 = 32 ∧ OneEighth 32 = 4 ∧ ThreeQuarters 32 = 24 ∧
      HighBits 32 = 0xF0000000) ∧
    (TotalBits 64 = 64 ∧ OneEighth 64 = 8 ∧ ThreeQuarters 64 = 48 ∧
      HighBits 64 = 0xFF00000000000000) := by
  refine ⟨?_, ?_, by decide, by decide⟩
  · rcases hw with rfl | rfl <;> decide
  · intro i
    rw [testBit_HighBits]
    simp only [Bool.and_eq_true, decide_eq_true_eq]
    exact ⟨fun h => ⟨h.2, h.1⟩, fun h => ⟨h.2, h.1⟩⟩

/-- Instance of C14 at 64 bits. -/
theorem PJW_ELF_constants_witness :
    (TotalBits 64 = 64 ∧ OneEighth 64 = 64 / 8 ∧ ThreeQuarters 64 = 3 * 64 / 4 ∧
      HighBits 64 = ((2 ^ 64 - 1) <<< (64 - 64 / 8)) % 2 ^ 64) ∧
    (∀ i, (HighBits 64).testBit i = true ↔ 64 - 64 / 8 ≤ i ∧ i < 64) ∧
    (TotalBits 32 = 32 ∧ OneEighth 32 = 4 ∧ ThreeQuarters 32 = 24 ∧
      HighBits 32 = 0xF0000000) ∧
    (TotalBits 64 = 64 ∧ OneEighth 64 = 8 ∧ ThreeQuarters 64 = 48 ∧
      HighBits 64 = 0xFF00000000000000) :=
  PJW_ELF_constants 64 (Or.inr rfl)

/-! ## The high bits of PJW and ELF -/

theorem three_mul_lt_two_pow (w : Nat) (hw : 4 ≤ w) : 3 * w < 2 ^ w := by
  induction w, hw using Nat.le_induction with
  | base => decide
  | succ n hn ih =>
    have h16 : 2 ^ 4 ≤ 2 ^ n := Nat.pow_le_pow_right (by decide) hn
    rw [pow_succ]
    omega

/-- At every word width the folded bits land below the high bits. -/
theorem OneEighth_le_ThreeQuarters (w : Nat) : OneEighth w ≤ ThreeQuarters w := by
  simp only [OneEighth, ThreeQuarters, TotalBits, wmul]
  by_cases hw : w < 8
  · have : w / 8 = 0 := Nat.div_eq_of_lt hw
    omega
  · have h3 : 3 * w < 2 ^ w := three_mul_lt_two_pow w (by omega)
    rw [Nat.mod_eq_of_lt (by omega)]
    omega

theorem wnot_lt (w a : Nat) : wnot w a < 2 ^ w := by
  have := Nat.two_pow_pos w
  simp only [wnot]
  omega

theorem PJWBody_lt (w hash ch : Nat) : PJWBody w hash ch < 2 ^ w := by
  simp only [PJWBody]
  split
  · exact Nat.and_lt_two_pow _ (wnot_lt w _)
  · exact wadd_lt _ _ _

/-- One round of `PJWHash` leaves none of the high bits set. -/
theorem PJWBody_and_HighBits (w hash ch : Nat) : PJWBody w hash ch &&& HighBits w = 0 := by
  simp only [PJWBody]
  have hH : HighBits w < 2 ^ w := wshl_lt _ _ _
  split
  · apply Nat.eq_of_testBit_eq
    intro i
    simp only [Nat.testBit_and, testBit_wnot hH, Nat.zero_testBit]
    cases (HighBits w).testBit i <;> simp
  · rename_i h
    exact not_not.mp h

/-- A word without high bits is below `2 ^ (w - w / 8)`. -/
theorem lt_of_and_HighBits {w r : Nat} (hr : r < 2 ^ w) (h : r &&& HighBits w = 0) :
    r < 2 ^ (w - w / 8) := by
  apply Nat.lt_pow_two_of_testBit
  intro i hi
  by_cases hiw : i < w
  · have hb : (r &&& HighBits w).testBit i = false := by rw [h]; exact Nat.zero_testBit i
    rw [Nat.testBit_and, testBit_HighBits] at hb
    have hi' : w - w / 8 ≤ i := hi
    simpa [hiw, hi'] using hb
  · exact Nat.testBit_lt_two_pow (lt_of_lt_of_le hr (Nat.pow_le_pow_right (by decide) (by omega)))

/-- A property of the state that the body preserves holds at the exit of the loop. -/
theorem whileCh_invariant {σ : Type} (w : Nat) (body : σ → Nat → σ) (P : σ → Prop)
    (hstep : ∀ s c, P s → P (body s c)) :
    ∀ (buf : List Nat) (pos : Nat) (s : σ) (n : Nat) (rd : List Nat) (t : Trace σ),
      P s → whileCh w body buf pos s n rd = some t → P t.state := by
  intro buf
  induction buf with
  | nil => intro pos s n rd t _ ht; rw [whileCh_nil] at ht; exact absurd ht (by simp)
  | cons c buf ih =>
    intro pos s n rd t hs ht
    rw [whileCh_cons] at ht
    by_cases hc : toSizeT w c = 0
    · rw [if_pos hc] at ht
      rw [← Option.some.inj ht]
      exact hs
    · rw [if_neg hc] at ht
      exact ih _ _ _ _ t (hstep s _ hs) ht

/-- The value of `PJWHash` on a buffer that holds a zero: it exists, has no high bit
and is below `2 ^ (w - w / 8)`. -/
theorem PJWHash_high_bits (w : Nat) (pre post : List Nat) :
    ∃ r, PJWHash w (pre ++ 0 :: post) = some r ∧ r &&& HighBits w = 0 ∧
      r < 2 ^ (w - w / 8) := by
  obtain ⟨t, ht, _⟩ := whileCh_bounded w (PJWBody w) post pre 0 0 0 []
  have hP := whileCh_invariant w (PJWBody w) (fun r => r < 2 ^ w ∧ r &&& HighBits w = 0)
    (fun s c _ => ⟨PJWBody_lt w s c, PJWBody_and_HighBits w s c⟩)
    (pre ++ 0 :: post) 0 0 0 [] t ⟨Nat.two_pow_pos w, Nat.zero_and _⟩ ht
  refine ⟨t.state, ?_, hP.2, lt_of_and_HighBits hP.1 hP.2⟩
  simp [PJWHash, PJWHashRun, ht]

/-- C15. High bits are masked out: for every buffer that holds a zero, whatever the
elements in front of it are and however many, and for every word width (32 and 64
among them), one round of `PJWHash` and one round of `ELFHash` leave the top `w / 8`
bits of the running hash at zero, and the returned value `r` satisfies
`r AND HighBits = 0` and `r < 2 ^ (w - w / 8)`. -/
theorem PJW_ELF_high_bits_clear (w : Nat) (pre post : List Nat) :
    (∀ hash ch, PJWBody w hash ch &&& HighBits w = 0 ∧ ELFBody w hash ch &&& HighBits w = 0) ∧
    (∃ r, PJWHash w (pre ++ 0 :: post) = some r ∧ r &&& HighBits w = 0 ∧
      r < 2 ^ (w - w / 8)) ∧
    (∃ r, ELFHash w (pre ++ 0 :: post) = some r ∧ r &&& HighBits w = 0 ∧
      r < 2 ^ (w - w / 8)) := by
  refine ⟨?_, PJWHash_high_bits w pre post, ?_⟩
  · intro hash ch
    refine ⟨PJWBody_and_HighBits w hash ch, ?_⟩
    rw [← PJWBody_eq_ELFBody w (OneEighth_le_ThreeQuarters w) hash ch]
    exact PJWBody_and_HighBits w hash ch
  · rw [← PJWHash_eq_ELFHash_of w (OneEighth_le_ThreeQuarters w)]
    exact PJWHash_high_bits w pre post

/-! ## A pair that differs, a pair that does not -/

/-- C16. Non-interchangeability witness: on "ab" (97, 98, sentinel), at 32 and at 64
bits, `BKDRHash` returns 12805, `SDBMHash` 6363201 and `DJBHash` 5863208, so the value
of `BKDRHash` differs from that of `SDBMHash` and from that of `DJBHash`. -/
theorem BKDR_SDBM_DJB_differ_on_ab :
    (BKDRHash 32 [97, 98, 0] = some 12805 ∧ SDBMHash 32 [97, 98, 0] = some 6363201 ∧
      DJBHash 32 [97, 98, 0] = some 5863208) ∧
    (BKDRHash 64 [97, 98, 0] = some 12805 ∧ SDBMHash 64 [97, 98, 0] = some 6363201 ∧
      DJBHash 64 [97, 98, 0] = some 5863208) ∧
    BKDRHash 32 [97, 98, 0] ≠ SDBMHash 32 [97, 98, 0] ∧
    BKDRHash 32 [97, 98, 0] ≠ DJBHash 32 [97, 98, 0] ∧
    BKDRHash 64 [97, 98, 0] ≠ SDBMHash 64 [97, 98, 0] ∧
    BKDRHash 64 [97, 98, 0] ≠ DJBHash 64 [97, 98, 0] := by
  decide

/-- C17. `PJWHash` and `ELFHash` compute the same function: at every word width (32
and 64 among them) the two loop bodies agree on every running hash and character,
since masking with the complement of `HighBits` and masking with the complement of
the extracted high bits clear the same bits; so the two functions return the same
value on every buffer, and that value exists when the buffer holds a zero. -/
theorem PJW_and_ELF_same_function (w : Nat) (buf pre post : List Nat) :
    (∀ hash ch, PJWBody w hash ch = ELFBody w hash ch) ∧
    PJWHash w buf = ELFHash w buf ∧
    ∃ r, PJWHash w (pre ++ 0 :: post) = some r ∧ ELFHash w (pre ++ 0 :: post) = some r := by
  refine ⟨PJWBody_eq_ELFBody w (OneEighth_le_ThreeQuarters w),
    PJWHash_eq_ELFHash_of w (OneEighth_le_ThreeQuarters w) buf, ?_⟩
  obtain ⟨r, hr, _⟩ := PJWHash_high_bits w pre post
  refine ⟨r, hr, ?_⟩
  rw [← PJWHash_eq_ELFHash_of w (OneEighth_le_ThreeQuarters w)]
  exact hr

/-! ## The shift form of SDBM -/

/-- The multiplication by 65599 and the commented-out shift form are the same step. -/
theorem SDBMBody_eq_SDBMBodyAlt (w hash ch : Nat) :
    SDBMBody w hash ch = SDBMBodyAlt w hash ch := by
  simp only [SDBMBody, SDBMBodyAlt, wadd, wmul, wshl, wsub, Nat.shiftLeft_eq]
  have hle : hash % 2 ^ w ≤ 2 ^ w := Nat.le_of_lt (Nat.mod_lt _ (Nat.two_pow_pos w))
  have h0 : (2 : ZMod (2 ^ w)) ^ w = 0 := by
    have h := ZMod.natCast_self (2 ^ w)
    push_cast at h
    exact h
  apply (ZMod.eq_iff_modEq_nat (2 ^ w)).mp
  push_cast [Nat.cast_sub hle, ZMod.natCast_mod]
  linear_combination (-1 : ZMod (2 ^ w)) * h0

/-- C18. The shift form that `SDBMHash` documents is its multiplication: for every
`h` and `ch` and every word width, `(65599 * h + ch) mod 2 ^ w` equals
`(ch + (h << 6) + (h << 16) - h) mod 2 ^ w`, the loop body and the commented-out body
are the same step in `size_t`, and `SDBMHash` with the commented-out body returns the
same result on every buffer. -/
theorem SDBM_shift_form (w h ch : Nat) (buf : List Nat) :
    (65599 * h + ch) % 2 ^ w = (ch + (h <<< 6) + (h <<< 16) - h) % 2 ^ w ∧
    SDBMBody w h ch = SDBMBodyAlt w h ch ∧
    SDBMHashAlt w buf = SDBMHash w buf := by
  refine ⟨?_, SDBMBody_eq_SDBMBodyAlt w h ch, ?_⟩
  · congr 1
    simp only [Nat.shiftLeft_eq]
    omega
  · have hb : SDBMBodyAlt w = SDBMBody w := by
      funext x c
      exact (SDBMBody_eq_SDBMBodyAlt w x c).symm
    simp [SDBMHashAlt, SDBMHash, SDBMHashRun, hb]

/-! ## The mixing step of DEK -/

/-- At 32 bits, the two shifted copies of a word have no bit in common. -/
theorem DEK_mix_32 (h : Nat) (hh : h < 2 ^ 32) :
    wshl 32 h 5 ^^^ h >>> 27 = rotl 32 h 5 := by
  simp only [wshl, rotl]
  apply Nat.eq_of_testBit_eq
  intro i
  simp only [Nat.testBit_xor, Nat.testBit_or, Nat.testBit_mod_two_pow, Nat.testBit_shiftLeft,
    Nat.testBit_shiftRight]
  by_cases hi : 5 ≤ i
  · have hb : h.testBit (27 + i) = false :=
      Nat.testBit_lt_two_pow (lt_of_lt_of_le hh (Nat.pow_le_pow_right (by decide) (by omega)))
    simp [hb]
  · simp [hi]

/-- C19. The mixing step of DEK is a rotation only at 32 bits: for every 32-bit word
`h` and every `c`, `((h << 5) xor (h >> 27)) xor c` is `rotl(h, 5) xor c`; at 64 bits
the word `h = 2 ^ 27` gives `(h << 5) xor (h >> 27) = 2 ^ 32 + 1` while
`rotl(h, 5) = 2 ^ 32`, so there the step of `DEKHash` differs from the rotation for
every character. -/
theorem DEK_rotation_only_at_32 (h c : Nat) (hh : h < 2 ^ 32) :
    DEKBody 32 h c = rotl 32 h 5 ^^^ c ∧
    (∃ g, g < 2 ^ 64 ∧ wshl 64 g 5 ^^^ g >>> 27 ≠ rotl 64 g 5 ∧
      ∀ d, DEKBody 64 g d ≠ rotl 64 g 5 ^^^ d) := by
  constructor
  · simp only [DEKBody]
    rw [DEK_mix_32 h hh]
  · refine ⟨2 ^ 27, by decide, by decide, ?_⟩
    intro d hd
    have h1 : DEKBody 64 (2 ^ 27) d = 4294967297 ^^^ d := by
      simp only [DEKBody]
      rfl
    have h2 : rotl 64 (2 ^ 27) 5 = 4294967296 := by decide
    rw [h1, h2] at hd
    have h3 := congrArg (fun x => x ^^^ d) hd
    simp only [Nat.xor_assoc, Nat.xor_self, Nat.xor_zero] at h3
    exact absurd h3 (by decide)

/-- Instance of C19 for the 32-bit word 0x80000001 and the character 'a'. -/
theorem DEK_rotation_only_at_32_witness :
    DEKBody 32 2147483649 97 = rotl 32 2147483649 5 ^^^ 97 ∧
    (∃ g, g < 2 ^ 64 ∧ wshl 64 g 5 ^^^ g >>> 27 ≠ rotl 64 g 5 ∧
      ∀ d, DEKBody 64 g d ≠ rotl 64 g 5 ^^^ d) :=
  DEK_rotation_only_at_32 2147483649 97 (by decide)

end StringHash
